import Mathlib

/-!
Verification of the `proca` process-orchestration engine.

This file is a shallow embedding, in Lean 4, of the core of the repository:

* the dependency resolver `ProcessEngine._resolve_dependencies`
  (`src/index.py` lines 395-413, `src/engine.py` lines 191-206);
* the circuit breaker `CircuitBreaker` (`src/circuit.py`, `src/index.py`
  lines 202-232);
* the event ledger `EventStore` (`src/eventstore.py`, `src/index.py`
  lines 172-196) and its `replay_process`;
* the orchestrator `ProcessEngine.execute_process`,
  `_execute_step_with_patterns` and `_compensate_executed_steps`
  (`src/index.py` lines 246-364);
* the retrying command step `CommandStep._execute_with_retry`
  (`src/steps/command.py`).

Modelling conventions:

* Python dictionaries are modelled as association lists with the update
  semantics of `dict.__setitem__` (`dictInsert` below): an existing key is
  overwritten in place, a new key is appended at the end.
* `datetime.now()` is modelled by a monotone integer clock threaded through
  the engine state; every modelled call to `now()` advances the clock.
* Arbitrary Python values (`Any`) are modelled by a type parameter `V`;
  Python `None` is `Option.none`.
* Exceptions raised by step code are modelled with `Except String`.
* Calls into step implementations and into the circuit breaker are recorded
  in an explicit event log (`EngEvent`), so that claims of the form
  "`compensate` is invoked exactly once per step, in reverse order" are
  statable.
* `set(steps)` in `_resolve_dependencies` iterates in CPython's
  implementation-defined order (derived from object identity hashes), which
  is some permutation of the input list but is not determined by the input
  order.  The resolver is therefore modelled as a function of the scan
  order actually presented to the repeated-scan loop.
-/

/-! ## Association lists with Python `dict` update semantics -/

/-- Python `d[k] = v`: overwrite an existing key in place, else append. -/
def dictInsert {α : Type} : List (String × α) → String → α → List (String × α)
  | [], k, v => [(k, v)]
  | (k', v') :: rest, k, v =>
    if k' = k then (k, v) :: rest else (k', v') :: dictInsert rest k v

/-- Python `d.get(k)`: first (and, for a well-formed dict, only) binding of `k`. -/
def dictFind {α : Type} : List (String × α) → String → Option α
  | [], _ => none
  | (k', v') :: rest, k => if k' = k then some v' else dictFind rest k

/-! ## Dependency resolver

Shallow embedding of `ProcessEngine._resolve_dependencies`
(`src/index.py` 395-413 and the equivalent `src/engine.py` 191-206):

```python
step_map = dict of step_id to step   # built but unused
resolved = []
unresolved = set(steps)
while unresolved:
    for step in list(unresolved):
        deps = step.get_dependencies()
        if all(dep_id in [s.step_id for s in resolved] for dep_id in deps):
            resolved.append(step)
            unresolved.remove(step)
            break
    else:
        raise Exception("Circular dependency detected or unresolvable dependencies")
return resolved
```

The resolver is polymorphic in the step representation `α`, accessed through
`sid` (`step.step_id`) and `deps` (`step.get_dependencies()`).  Each pass of
the `while` body scans the unresolved steps in their current set-iteration
order, moves the first step all of whose dependencies are already resolved,
and raises when a full scan makes no progress.  Every pass removes exactly
one step or raises, so `steps.length` passes always suffice; the `fuel`
parameter is the pass counter and is started at `steps.length`. -/

/-- One `for step in list(unresolved)` scan: return the first step whose
dependencies are all contained in `ids` (the resolved step ids), together
with the remaining unresolved steps, or `none` if the scan makes no
progress. -/
def findEligible {α : Type} (deps : α → List String) (ids : List String) :
    List α → Option (α × List α)
  | [] => none
  | s :: rest =>
    if (deps s).all (fun d => ids.contains d) then some (s, rest)
    else
      match findEligible deps ids rest with
      | some (t, r2) => some (t, s :: r2)
      | none => none

/-- The `while unresolved:` loop of `_resolve_dependencies`. -/
def resolveAux {α : Type} (sid : α → String) (deps : α → List String) :
    Nat → List α → List α → Option (List α)
  | _, resolved, [] => some resolved
  | 0, _, _ :: _ => none
  | fuel + 1, resolved, s :: rest =>
    match findEligible deps (resolved.map sid) (s :: rest) with
    | none => none
    | some (t, r2) => resolveAux sid deps fuel (resolved ++ [t]) r2

/-- Embedding of `ProcessEngine._resolve_dependencies`, as a function of the scan order
in which `set(steps)` presents the steps to the repeated-scan loop. -/
def resolveDependencies {α : Type} (sid : α → String) (deps : α → List String)
    (steps : List α) : Option (List α) :=
  resolveAux sid deps steps.length [] steps

/-- Bare dependency data of a step: `step_id` and `get_dependencies()`. -/
structure PStep where
  step_id : String
  deps : List String
deriving DecidableEq, Repr

/-- A topologically consistent order: scanning left to right, every step's
dependencies are contained in `seen` (the ids already output). -/
def okOrder {α : Type} (sid : α → String) (deps : α → List String) :
    List String → List α → Bool
  | _, [] => true
  | seen, s :: rest =>
    (deps s).all (fun d => seen.contains d) && okOrder sid deps (seen ++ [sid s]) rest

/-- Dependency relation of a step set, at the level of step ids:
`depRel steps d e` holds when the step named `e` lists `d` as a dependency. -/
def depRel (steps : List PStep) (d e : String) : Prop :=
  ∃ s ∈ steps, s.step_id = e ∧ d ∈ s.deps

/-! ## Execution data model (`src/core.py`, `src/index.py` 17-62)

Python `Any` values are modelled by the type parameter `V`; Python `None`
is `Option.none`.  Dictionaries are association lists (see `dictInsert`). -/

inductive ExecutionStatus where
  | pending
  | running
  | success
  | failed
  | compensated
deriving DecidableEq, Repr

/-- The `.value` string of an `ExecutionStatus` member. -/
def ExecutionStatus.value : ExecutionStatus → String
  | .pending => "pending"
  | .running => "running"
  | .success => "success"
  | .failed => "failed"
  | .compensated => "compensated"

/-- Circuit breaker states; `opened` models the Python `OPEN` state. -/
inductive CircuitStatus where
  | closed
  | opened
  | halfOpen
deriving DecidableEq, Repr

/-- One entry of `Context.execution_trace`: a step_id, a status string,
and a completion timestamp. -/
structure TraceEntry where
  step_id : String
  status : String
  timestamp : Int
deriving DecidableEq, Repr

/-- Shared context for step execution (`Context`). -/
structure Context (V : Type) where
  process_id : String := ""
  user_id : Option String := none
  tenant_id : Option String := none
  data : List (String × Option V) := []
  metadata : List (String × Option V) := []
  execution_trace : List TraceEntry := []
deriving DecidableEq

/-- Result of one step execution attempt (`StepResult`). -/
structure StepResult (V : Type) where
  success : Bool
  data : Option V := none
  error : Option String := none
  metadata : List (String × Option V) := []
deriving DecidableEq

/-- Durable audit record of one step attempt (`StepExecution`).  The
`metadata` dictionary written by the engine holds exactly the keys
`execution_time_ms` and `step_type`, modelled as two optional fields. -/
structure StepExecution (V : Type) where
  step_id : String
  process_id : String
  started_at : Int
  completed_at : Option Int := none
  input_data : List (String × Option V) := []
  output_data : Option V := none
  status : ExecutionStatus := .pending
  error_message : Option String := none
  metadata_execution_time_ms : Option Int := none
  metadata_step_type : Option String := none
deriving DecidableEq

instance {V : Type} : Inhabited (StepExecution V) :=
  ⟨{ step_id := "", process_id := "", started_at := 0 }⟩

/-! ## Circuit breaker (`src/circuit.py`, `src/index.py` 202-232)

`datetime.now().timestamp()` is passed in as the integer argument `now`.
`src/circuit.py` reads `(self.last_failure_time or 0)`; `src/index.py`
reads `self.last_failure_time` directly, but in every state reachable from
the initial one the two agree, because `OPEN` is only entered by
`record_failure`, which sets `last_failure_time`. -/

structure CircuitBreaker where
  failure_threshold : Nat := 5
  timeout : Int := 60
  failure_count : Nat := 0
  last_failure_time : Option Int := none
  state : CircuitStatus := .closed
deriving DecidableEq, Repr

namespace CircuitBreaker

/-- Model of `CircuitBreaker.can_execute`, returning the result together with the
mutated breaker (the `OPEN → HALF_OPEN` transition happens inside it). -/
def canExecute (cb : CircuitBreaker) (now : Int) : Bool × CircuitBreaker :=
  match cb.state with
  | .closed => (true, cb)
  | .opened =>
    if now - (cb.last_failure_time.getD 0) > cb.timeout then
      (true, { cb with state := .halfOpen })
    else
      (false, cb)
  | .halfOpen => (true, cb)

/-- Model of `CircuitBreaker.record_success`. -/
def recordSuccess (cb : CircuitBreaker) : CircuitBreaker :=
  { cb with failure_count := 0, state := .closed }

/-- Model of `CircuitBreaker.record_failure`. -/
def recordFailure (cb : CircuitBreaker) (now : Int) : CircuitBreaker :=
  let cb' := { cb with failure_count := cb.failure_count + 1,
                       last_failure_time := some now }
  if cb'.failure_count ≥ cb'.failure_threshold then { cb' with state := .opened }
  else cb'

end CircuitBreaker

/-! ## Event store (`src/eventstore.py`, `src/index.py` 172-196)

The ledger is the list `EventStore.events`, in append order.  Python's
`sorted(events, key=lambda x: x.started_at)` is a stable ascending sort,
modelled by the stable insertion sort `sortByStart`. -/

/-- Model of `EventStore.store_execution`: append-only. -/
def storeExecution {V : Type} (events : List (StepExecution V)) (e : StepExecution V) :
    List (StepExecution V) :=
  events ++ [e]

/-- Model of `EventStore.get_process_history`: all records of one process, in
storage order. -/
def getProcessHistory {V : Type} (events : List (StepExecution V)) (pid : String) :
    List (StepExecution V) :=
  events.filter (fun e => e.process_id == pid)

/-- Stable insertion into a list ascending in `started_at`: the new element
goes before the first element whose key is not smaller, which is where
Python's stable sort keeps an earlier-input element relative to equal keys. -/
def insertByStart {V : Type} (e : StepExecution V) :
    List (StepExecution V) → List (StepExecution V)
  | [] => [e]
  | x :: xs =>
    if x.started_at < e.started_at then x :: insertByStart e xs
    else e :: x :: xs

/-- Stable ascending sort by `started_at`, modelling Python `sorted`. -/
def sortByStart {V : Type} : List (StepExecution V) → List (StepExecution V)
  | [] => []
  | x :: xs => insertByStart x (sortByStart xs)

/-- Model of `EventStore.replay_process`: rebuild a fresh `Context` by writing
`data["<step_id>_result"] = output_data` for every `SUCCESS` record of the
process, in ascending `started_at` order. -/
def replayProcess {V : Type} (events : List (StepExecution V)) (pid : String) :
    Context V :=
  { process_id := pid,
    data := (sortByStart (getProcessHistory events pid)).foldl
      (fun d e =>
        if e.status = ExecutionStatus.success then
          dictInsert d (e.step_id ++ "_result") e.output_data
        else d) [] }

/-- The `SUCCESS` records of one process in the order `replay_process`
iterates them (ascending `started_at`, stable). -/
def replaySuccesses {V : Type} (events : List (StepExecution V)) (pid : String) :
    List (StepExecution V) :=
  (sortByStart (getProcessHistory events pid)).filter
    (fun e => e.status == ExecutionStatus.success)

/-! ## Process engine (`src/index.py` 238-413)

A step implementation is modelled by its observable behaviour: `validate`,
`execute` and `compensate` are functions of the context that may raise
(`Except.error`); `compensate` additionally returns the (possibly mutated)
context, since the engine hands it the live context object.  The example
step classes of the repository never mutate the context in `validate` or
`execute` — only the engine writes `data["<step_id>_result"]` — so those
two are modelled as pure functions of the context.

The engine state `EngState` carries the event-store ledger, the
`circuit_breakers` dictionary, the integer clock behind `datetime.now()`,
and an instrumentation log (`EngEvent`) of the calls the engine makes into
step implementations and circuit breakers. -/

/-- Instrumentation events: which step methods and breaker transitions the
engine invoked, in order. -/
inductive EngEvent where
  | validateCall (step_id : String)
  | executeCall (step_id : String)
  | compensateCall (step_id : String)
  | cbSuccess (step_id : String)
  | cbFailure (step_id : String)
deriving DecidableEq, Repr

/-- The step id an instrumentation event refers to. -/
def EngEvent.stepId : EngEvent → String
  | .validateCall i => i
  | .executeCall i => i
  | .compensateCall i => i
  | .cbSuccess i => i
  | .cbFailure i => i

/-- Project a `compensate` call out of an event. -/
def EngEvent.compId : EngEvent → Option String
  | .compensateCall i => some i
  | _ => none

/-- A step as the engine sees it (`Step` contract, `src/step.py`). -/
structure StepModel (V : Type) where
  step_id : String
  step_type : String
  deps : List String := []
  validate : Context V → Except String Bool
  execute : Context V → Except String (StepResult V)
  compensate : Context V → Except String (StepResult V) × Context V

/-- The default `Step.compensate`: trivially succeed, touch nothing. -/
def defaultCompensate {V : Type} : Context V → Except String (StepResult V) × Context V :=
  fun c => (Except.ok { success := true }, c)

/-- Engine-wide mutable state. -/
structure EngState (V : Type) where
  ledger : List (StepExecution V) := []
  breakers : List (String × CircuitBreaker) := []
  clock : Int := 0
  log : List EngEvent := []

/-- Model of `ProcessEngine._get_circuit_breaker`: look up, creating a default
`CircuitBreaker()` (threshold 5, timeout 60) on first use. -/
def getBreaker (brs : List (String × CircuitBreaker)) (step_id : String) :
    CircuitBreaker :=
  (dictFind brs step_id).getD {}

/-- Record a failure on a step's breaker (the `circuit_breaker.record_failure()`
calls of `_execute_step_with_patterns`), consuming one clock tick for the
`datetime.now()` inside `record_failure`. -/
def engRecordFailure {V : Type} (step_id : String) (st : EngState V) : EngState V :=
  { st with
    breakers := dictInsert st.breakers step_id
      ((getBreaker st.breakers step_id).recordFailure st.clock),
    clock := st.clock + 1,
    log := st.log ++ [.cbFailure step_id] }

/-- Record a success on a step's breaker. -/
def engRecordSuccess {V : Type} (step_id : String) (st : EngState V) : EngState V :=
  { st with
    breakers := dictInsert st.breakers step_id
      ((getBreaker st.breakers step_id).recordSuccess),
    log := st.log ++ [.cbSuccess step_id] }

/-- The `try:` block of `_execute_step_with_patterns`: validation, execution,
and the resulting `(status, error_message, output_data)` triple, with the
corresponding breaker bookkeeping.  A `False` from `validate` raises
`"Step validation failed for <id>"`; any exception is caught and mapped to
`FAILED` with the exception's message, and the breaker records the failure. -/
def runStepBody {V : Type} (step : StepModel V) (ctx : Context V) (st : EngState V) :
    ExecutionStatus × Option String × Option V × EngState V :=
  let st1 : EngState V := { st with log := st.log ++ [.validateCall step.step_id] }
  match step.validate ctx with
  | .error e => (.failed, some e, none, engRecordFailure step.step_id st1)
  | .ok false =>
    (.failed, some ("Step validation failed for " ++ step.step_id), none,
      engRecordFailure step.step_id st1)
  | .ok true =>
    let st2 : EngState V := { st1 with log := st1.log ++ [.executeCall step.step_id] }
    match step.execute ctx with
    | .error e => (.failed, some e, none, engRecordFailure step.step_id st2)
    | .ok res =>
      if res.success then (.success, none, res.data, engRecordSuccess step.step_id st2)
      else (.failed, res.error, none, engRecordFailure step.step_id st2)

/-- Model of `ProcessEngine._execute_step_with_patterns` (`src/index.py` 284-349).
If the breaker refuses, a `FAILED` record with error
`"Circuit breaker is OPEN"` is stored and returned immediately: `validate`
and `execute` are not invoked, and — because the early `return` skips the
`try/finally` — no metadata is computed and **no** `execution_trace` entry
is appended.  Otherwise the record produced by the `try` body is completed,
stored, and an entry is appended to `Context.execution_trace`. -/
def executeStepWithPatterns {V : Type} (step : StepModel V) (ctx : Context V)
    (st : EngState V) : StepExecution V × Context V × EngState V :=
  let cb := getBreaker st.breakers step.step_id
  let gate := cb.canExecute st.clock
  let st1 : EngState V :=
    { st with clock := st.clock + 1,
              breakers := dictInsert st.breakers step.step_id gate.2 }
  if gate.1 then
    let started := st1.clock
    let st2 : EngState V := { st1 with clock := started + 1 }
    let body := runStepBody step ctx st2
    let completed := body.2.2.2.clock
    let recd : StepExecution V :=
      { step_id := step.step_id, process_id := ctx.process_id,
        started_at := started, completed_at := some completed,
        input_data := ctx.data, output_data := body.2.2.1,
        status := body.1, error_message := body.2.1,
        metadata_execution_time_ms := some (completed - started),
        metadata_step_type := some step.step_type }
    let st3 : EngState V :=
      { body.2.2.2 with clock := completed + 1, ledger := body.2.2.2.ledger ++ [recd] }
    let ctx1 : Context V :=
      { ctx with execution_trace :=
          ctx.execution_trace ++ [⟨step.step_id, recd.status.value, completed⟩] }
    (recd, ctx1, st3)
  else
    let recd : StepExecution V :=
      { step_id := step.step_id, process_id := ctx.process_id,
        started_at := st1.clock, completed_at := some (st1.clock + 1),
        status := .failed, error_message := some "Circuit breaker is OPEN" }
    let st2 : EngState V :=
      { st1 with clock := st1.clock + 2, ledger := st1.ledger ++ [recd] }
    (recd, ctx, st2)

/-- The body of `_compensate_executed_steps`' loop over `reversed(executed)`:
each step's `compensate(context)` is invoked once; its outcome (including a
raised exception) is only logged and never stops the sweep, and nothing is
stored in the event ledger. -/
def compensateList {V : Type} : List (StepModel V) → Context V → EngState V →
    Context V × EngState V
  | [], ctx, st => (ctx, st)
  | s :: rest, ctx, st =>
    let st1 : EngState V := { st with log := st.log ++ [.compensateCall s.step_id] }
    let r := s.compensate ctx
    compensateList rest r.2 st1

/-- Model of `ProcessEngine._compensate_executed_steps` (`src/index.py` 351-364):
compensate the executed steps in reverse order. -/
def compensateExecuted {V : Type} (executed : List (StepModel V)) (ctx : Context V)
    (st : EngState V) : Context V × EngState V :=
  compensateList executed.reverse ctx st

/-- The process-level error raised on a step failure: the Python f-string
interpolates the step id and the record error message into
the text, and prints a missing message as the word None. -/
def processFailMsg {V : Type} (step : StepModel V) (recd : StepExecution V) : String :=
  "Process failed at step " ++ step.step_id ++ ": " ++ (recd.error_message.getD "None")

/-- The `for step in execution_order:` loop of `execute_process`
(`src/index.py` 262-275), accumulating `executed_steps`. -/
def runLoop {V : Type} : Context V → EngState V → List (StepModel V) →
    List (StepModel V) → Except String (Context V) × Context V × EngState V
  | ctx, st, _, [] => (.ok ctx, ctx, st)
  | ctx, st, executed, step :: rest =>
    if (executeStepWithPatterns step ctx st).1.status = ExecutionStatus.success then
      runLoop
        { (executeStepWithPatterns step ctx st).2.1 with
          data := dictInsert (executeStepWithPatterns step ctx st).2.1.data
            (step.step_id ++ "_result") (executeStepWithPatterns step ctx st).1.output_data }
        (executeStepWithPatterns step ctx st).2.2 (executed ++ [step]) rest
    else
      (.error (processFailMsg step (executeStepWithPatterns step ctx st).1),
       (compensateExecuted executed (executeStepWithPatterns step ctx st).2.1
         (executeStepWithPatterns step ctx st).2.2).1,
       (compensateExecuted executed (executeStepWithPatterns step ctx st).2.1
         (executeStepWithPatterns step ctx st).2.2).2)

/-- Model of `ProcessEngine.execute_process` (`src/index.py` 246-282), starting from
already-built step instances.  A resolution failure propagates before any
step runs; a step failure triggers compensation and re-raises. -/
def executeProcess {V : Type} (steps : List (StepModel V)) (ctx : Context V)
    (st : EngState V) : Except String (Context V) × Context V × EngState V :=
  match resolveDependencies StepModel.step_id StepModel.deps steps with
  | none => (.error "Circular dependency detected or unresolvable dependencies", ctx, st)
  | some order => runLoop ctx st [] order

/-- The context and engine state after the first `n` steps of `order`,
assuming each of them took the `SUCCESS` branch of the loop (the state this
computes agrees with the real run exactly when they did). -/
def afterN {V : Type} (order : List (StepModel V)) (ctx : Context V) (st : EngState V) :
    Nat → Context V × EngState V
  | 0 => (ctx, st)
  | n + 1 =>
    match order.get? n with
    | none => afterN order ctx st n
    | some s =>
      ({ (executeStepWithPatterns s (afterN order ctx st n).1 (afterN order ctx st n).2).2.1 with
         data := dictInsert
           (executeStepWithPatterns s (afterN order ctx st n).1 (afterN order ctx st n).2).2.1.data
           (s.step_id ++ "_result")
           (executeStepWithPatterns s (afterN order ctx st n).1 (afterN order ctx st n).2).1.output_data },
       (executeStepWithPatterns s (afterN order ctx st n).1 (afterN order ctx st n).2).2.2)

/-- The execution record the engine produces for step `i` of `order`, when
the first `i` steps succeeded. -/
def recAt {V : Type} (order : List (StepModel V)) (ctx : Context V) (st : EngState V)
    (i : Nat) : StepExecution V :=
  match order.get? i with
  | none => default
  | some s => (executeStepWithPatterns s (afterN order ctx st i).1 (afterN order ctx st i).2).1

/-! ## Command step retry (`src/steps/command.py`)

The underlying `command_func` is modelled as a function of the context and
of the invocation index (its own external state across retries); a raised
exception is `Except.error`.  `retryGo g base n` runs attempts
`base, base+1, …, base+n`; `sleeps` records the `await asyncio.sleep(2 ** attempt)`
durations between attempts, and `calls` counts invocations of the
underlying operation. -/

structure RetryOutcome (V : Type) where
  result : Except String V
  sleeps : List Nat
  calls : Nat

/-- The `for attempt in range(self.retry_count + 1)` loop of
`CommandStep._execute_with_retry`. -/
def retryGo {V : Type} (g : Nat → Except String V) (base : Nat) :
    Nat → RetryOutcome V
  | 0 =>
    -- last attempt: re-raise on failure
    ⟨g base, [], 1⟩
  | n + 1 =>
    match g base with
    | .ok v => ⟨.ok v, [], 1⟩
    | .error _ =>
      let r := retryGo g (base + 1) n
      ⟨r.result, 2 ^ base :: r.sleeps, r.calls + 1⟩

/-- Model of `CommandStep._execute_with_retry` with `retry_count = rc`. -/
def executeWithRetry {V : Type} (rc : Nat) (g : Nat → Except String V) :
    RetryOutcome V :=
  retryGo g 0 rc

/-- Model of `CommandStep.execute`: wrap the retried call, catching the final
exception into an unsuccessful `StepResult`. -/
def commandExecute {V : Type} (rc : Nat) (func : Context V → Nat → Except String V)
    (c : Context V) : StepResult V :=
  match (executeWithRetry rc (func c)).result with
  | .ok v => { success := true, data := some v }
  | .error e => { success := false, error := some e }

/-- A `CommandStep` as the engine sees it: default `validate`, retried
`execute` that never raises, default `compensate`. -/
def commandStepModel {V : Type} (step_id : String) (rc : Nat)
    (func : Context V → Nat → Except String V) (deps : List String) : StepModel V :=
  { step_id := step_id, step_type := "command", deps := deps,
    validate := fun _ => .ok true,
    execute := fun c => .ok (commandExecute rc func c),
    compensate := defaultCompensate }

/-- A cycle in the dependency graph, as a nonempty list of step ids in which
each id's step depends on the next id, cyclically. -/
def idCycle (steps : List PStep) (c : List String) : Bool :=
  !c.isEmpty &&
    (c.zip (c.rotate 1)).all
      (fun p => steps.any (fun s => s.step_id == p.1 && s.deps.contains p.2))

/-- Steps of the spec's worked example: `V` (no deps), `C` (depends on `V`),
`N` (depends on `C`), in an arbitrary scan order. -/
def exSteps : List PStep := [⟨"C", ["V"]⟩, ⟨"V", []⟩, ⟨"N", ["C"]⟩]

/-- A topological ranking for `exSteps`. -/
def exRank : String → Nat :=
  fun i => if i = "V" then 0 else if i = "C" then 1 else 2

/-- A two-step cycle: `A` depends on `B` and `B` depends on `A`. -/
def cycleSteps : List PStep := [⟨"A", ["B"]⟩, ⟨"B", ["A"]⟩]

/-- A three-record ledger: process `p` has a `SUCCESS` for `a` and a
`FAILED` for `b`; process `q` has an unrelated `SUCCESS` for `c`. -/
def exStore : List (StepExecution Nat) :=
  [ { step_id := "a", process_id := "p", started_at := 0,
      status := .success, output_data := some 1 },
    { step_id := "b", process_id := "p", started_at := 1,
      status := .failed, output_data := some 2 },
    { step_id := "c", process_id := "q", started_at := 2,
      status := .success, output_data := some 3 } ]

/-- A step whose `execute` succeeds with output `1`. -/
def okStep (id : String) (deps : List String) : StepModel Nat :=
  { step_id := id, step_type := "command", deps := deps,
    validate := fun _ => .ok true,
    execute := fun _ => .ok { success := true, data := some 1 },
    compensate := defaultCompensate }

/-- A step whose `execute` returns an unsuccessful result with error
`"boom"`. -/
def failStep (id : String) (deps : List String) : StepModel Nat :=
  { step_id := id, step_type := "command", deps := deps,
    validate := fun _ => .ok true,
    execute := fun _ => .ok { success := false, error := some "boom" },
    compensate := defaultCompensate }

/-- The spec's scenario: `V` (no deps) and `C` (depends on `V`) succeed,
`N` (depends on `C`) fails. -/
def vcnSteps : List (StepModel Nat) := [okStep "V" [], okStep "C" ["V"], failStep "N" ["C"]]

def vcnCtx : Context Nat := { process_id := "p" }

def vcnSt : EngState Nat := {}

/-- An open breaker for step id `G` whose cooldown has not elapsed at clock
time 1. -/
def cbOpenEx : CircuitBreaker :=
  { failure_threshold := 5, timeout := 60, failure_count := 5,
    last_failure_time := some 0, state := .opened }

def gateStep : StepModel Nat := okStep "G" []

def gateCtx : Context Nat := { process_id := "p" }

def gateSt : EngState Nat := { breakers := [("G", cbOpenEx)], clock := 1 }

/-- An underlying operation that fails on invocations 0 and 1 and returns
`42` on invocation 2. -/
def flakyFunc : Context Nat → Nat → Except String Nat :=
  fun _ n => if n = 0 then .error "boom0" else if n = 1 then .error "boom1" else .ok 42

def flakyCtx : Context Nat := { process_id := "q" }

theorem dictFind_dictInsert_self {α : Type} (l : List (String × α)) (k : String) (v : α) :
    dictFind (dictInsert l k v) k = some v := by
  induction l with
  | nil => simp [dictInsert, dictFind]
  | cons p rest ih =>
    obtain ⟨pk, pv⟩ := p
    by_cases h : pk = k
    · simp [dictInsert, dictFind, h]
    · simp [dictInsert, dictFind, h, ih]

theorem dictFind_dictInsert_ne {α : Type} (l : List (String × α)) (k k' : String) (v : α)
    (h : k' ≠ k) : dictFind (dictInsert l k v) k' = dictFind l k' := by
  induction l with
  | nil => simp [dictInsert, dictFind, Ne.symm h]
  | cons p rest ih =>
    obtain ⟨pk, pv⟩ := p
    by_cases hpk : pk = k
    · subst hpk
      simp [dictInsert, dictFind, Ne.symm h]
    · by_cases hpk' : pk = k' <;> simp [dictInsert, dictFind, hpk, hpk', h, ih]

theorem dictFind_isSome_dictInsert {α : Type} (l : List (String × α)) (k k' : String) (v : α) :
    (dictFind (dictInsert l k v) k').isSome ↔ k' = k ∨ (dictFind l k').isSome := by
  by_cases h : k' = k
  · subst h; simp [dictFind_dictInsert_self]
  · simp [dictFind_dictInsert_ne l k k' v h, h]

example : resolveDependencies PStep.step_id PStep.deps
    [⟨"C", ["V"]⟩, ⟨"V", []⟩, ⟨"N", ["C"]⟩] =
    some [⟨"V", []⟩, ⟨"C", ["V"]⟩, ⟨"N", ["C"]⟩] := by decide

example : resolveDependencies PStep.step_id PStep.deps
    [⟨"A", ["B"]⟩, ⟨"B", ["A"]⟩] = none := by decide

theorem stringContains_iff {l : List String} {a : String} :
    l.contains a = true ↔ a ∈ l := by
  simp [List.contains, List.elem_iff]

/-- Whatever `findEligible` picks is eligible, every step it skipped over is
not, and the remainder is the scanned list with the pick removed. -/
theorem findEligible_split {α : Type} (deps : α → List String) (ids : List String) :
    ∀ (l : List α) (s : α) (rest : List α),
      findEligible deps ids l = some (s, rest) →
      ∃ l1 l2, l = l1 ++ s :: l2 ∧ rest = l1 ++ l2 ∧
        ((deps s).all (fun d => ids.contains d) = true) ∧
        ∀ x ∈ l1, ¬((deps x).all (fun d => ids.contains d) = true) := by
  intro l
  induction l with
  | nil => intro s rest h; simp [findEligible] at h
  | cons a tl ih =>
    intro s rest h
    by_cases ha : (deps a).all (fun d => ids.contains d) = true
    · simp only [findEligible, if_pos ha, Option.some.injEq, Prod.mk.injEq] at h
      obtain ⟨h1, h2⟩ := h
      subst h1; subst h2
      exact ⟨[], tl, rfl, rfl, ha, by simp⟩
    · simp only [findEligible, if_neg ha] at h
      match hrec : findEligible deps ids tl with
      | some (t, r2) =>
        rw [hrec] at h
        simp only [Option.some.injEq, Prod.mk.injEq] at h
        obtain ⟨l1, l2, htl, hr2, helig, hskip⟩ := ih t r2 hrec
        refine ⟨a :: l1, l2, ?_, ?_, ?_, ?_⟩
        · simp [htl, ← h.1]
        · simp [← h.2, hr2]
        · rw [← h.1]; exact helig
        · intro x hx
          rcases List.mem_cons.mp hx with hxa | hxl
          · subst hxa; exact ha
          · exact hskip x hxl
      | none => rw [hrec] at h; exact absurd h (by simp)

theorem findEligible_perm {α : Type} {deps : α → List String} {ids : List String}
    {l : List α} {s : α} {rest : List α} (h : findEligible deps ids l = some (s, rest)) :
    l.Perm (s :: rest) := by
  obtain ⟨l1, l2, hl, hr, _, _⟩ := findEligible_split deps ids l s rest h
  rw [hl, hr]
  exact List.perm_middle

theorem findEligible_length {α : Type} {deps : α → List String} {ids : List String}
    {l : List α} {s : α} {rest : List α} (h : findEligible deps ids l = some (s, rest)) :
    rest.length + 1 = l.length :=
  ((findEligible_perm h).length_eq).symm

/-- A scan that makes no progress really found no eligible step. -/
theorem findEligible_none {α : Type} (deps : α → List String) (ids : List String) :
    ∀ (l : List α), findEligible deps ids l = none →
      ∀ x ∈ l, ¬((deps x).all (fun d => ids.contains d) = true) := by
  intro l
  induction l with
  | nil => intro _ x hx; simp at hx
  | cons a tl ih =>
    intro h x hx
    by_cases ha : (deps a).all (fun d => ids.contains d) = true
    · simp only [findEligible, if_pos ha] at h
      exact absurd h (by simp)
    · simp only [findEligible, if_neg ha] at h
      rcases List.mem_cons.mp hx with hxa | hxl
      · subst hxa; exact ha
      · match hrec : findEligible deps ids tl with
        | some (t, r2) => rw [hrec] at h; simp at h
        | none => exact ih hrec x hxl

/-- Soundness of the repeated-scan loop: any returned order extends the
resolved prefix with a permutation of the unresolved steps in which every
step's dependencies already occur earlier. -/
theorem resolveAux_sound {α : Type} (sid : α → String) (deps : α → List String) :
    ∀ (fuel : Nat) (resolved unresolved out : List α),
      resolveAux sid deps fuel resolved unresolved = some out →
      ∃ t, out = resolved ++ t ∧ unresolved.Perm t ∧
        okOrder sid deps (resolved.map sid) t = true := by
  intro fuel
  induction fuel with
  | zero =>
    intro resolved unresolved out h
    match unresolved with
    | [] =>
      simp only [resolveAux, Option.some.injEq] at h
      exact ⟨[], by simp [← h], List.Perm.refl _, rfl⟩
    | s :: rest => simp [resolveAux] at h
  | succ f ih =>
    intro resolved unresolved out h
    match unresolved with
    | [] =>
      simp only [resolveAux, Option.some.injEq] at h
      exact ⟨[], by simp [← h], List.Perm.refl _, rfl⟩
    | s :: rest =>
      simp only [resolveAux] at h
      match hfe : findEligible deps (resolved.map sid) (s :: rest) with
      | none => rw [hfe] at h; simp at h
      | some (t, r2) =>
        rw [hfe] at h
        obtain ⟨t', hout, hperm, hok⟩ := ih (resolved ++ [t]) r2 out h
        refine ⟨t :: t', ?_, ?_, ?_⟩
        · simp [hout]
        · exact (findEligible_perm hfe).trans (hperm.cons t)
        · obtain ⟨_, _, _, _, helig, _⟩ := findEligible_split deps (resolved.map sid) _ _ _ hfe
          have hrw : okOrder sid deps (resolved.map sid) (t :: t') =
              (((deps t).all fun d => (resolved.map sid).contains d) &&
                okOrder sid deps (resolved.map sid ++ [sid t]) t') := rfl
          rw [hrw, helig, Bool.true_and,
            show resolved.map sid ++ [sid t] = (resolved ++ [t]).map sid by simp]
          exact hok

/-- Completeness of the repeated-scan loop: with enough fuel (one pass per
step suffices), a closed, well-founded dependency graph always resolves. -/
theorem resolveAux_complete (steps : List PStep)
    (hclosed : ∀ s ∈ steps, ∀ d ∈ s.deps, d ∈ steps.map PStep.step_id)
    (hwf : WellFounded (depRel steps)) :
    ∀ (fuel : Nat) (resolved unresolved : List PStep),
      unresolved.length ≤ fuel →
      (resolved ++ unresolved).Perm steps →
      ∃ out, resolveAux PStep.step_id PStep.deps fuel resolved unresolved = some out := by
  intro fuel
  induction fuel with
  | zero =>
    intro resolved unresolved hlen _
    match unresolved with
    | [] => exact ⟨resolved, rfl⟩
    | s :: rest => simp at hlen
  | succ f ih =>
    intro resolved unresolved hlen hperm
    match unresolved with
    | [] => exact ⟨resolved, rfl⟩
    | s :: rest =>
      have hne : findEligible PStep.deps (resolved.map PStep.step_id) (s :: rest) ≠ none := by
        intro hnone
        have hmin := hwf.has_min
          { a | a ∈ (s :: rest).map PStep.step_id }
          ⟨s.step_id, by simp⟩
        obtain ⟨m, hm, hminimal⟩ := hmin
        obtain ⟨u, hu, hum⟩ := List.mem_map.mp hm
        have hus : u ∈ steps := hperm.subset (by simp [hu])
        have helig : (u.deps).all (fun d => (resolved.map PStep.step_id).contains d) = true := by
          rw [List.all_eq_true]
          intro d hd
          have hrel : depRel steps d m := ⟨u, hus, hum, hd⟩
          have hdnot : d ∉ (s :: rest).map PStep.step_id := by
            intro hdin
            exact hminimal d hdin hrel
        -- d is an id of some step, but of no unresolved step, so of a resolved one
          have hdsteps : d ∈ steps.map PStep.step_id := hclosed u hus d hd
          have hdsplit : d ∈ resolved.map PStep.step_id ++ (s :: rest).map PStep.step_id := by
            have := (hperm.map PStep.step_id).mem_iff.mpr hdsteps
            rwa [List.map_append] at this
          rcases List.mem_append.mp hdsplit with hdr | hdu
          · exact stringContains_iff.mpr hdr
          · exact absurd hdu hdnot
        exact findEligible_none PStep.deps (resolved.map PStep.step_id) (s :: rest) hnone u hu helig
      match hfe : findEligible PStep.deps (resolved.map PStep.step_id) (s :: rest) with
      | none => exact absurd hfe hne
      | some (t, r2) =>
        have hlen2 : r2.length ≤ f := by
          have hl1 := findEligible_length hfe
          simp only [List.length_cons] at hl1 hlen
          omega
        have hperm2 : ((resolved ++ [t]) ++ r2).Perm steps := by
          have h1 : ((resolved ++ [t]) ++ r2).Perm (resolved ++ (s :: rest)) := by
            rw [List.append_assoc]
            exact List.Perm.append_left resolved
              ((List.perm_middle.symm.trans (findEligible_perm hfe).symm) :
                ([t] ++ r2).Perm (s :: rest))
          exact h1.trans hperm
        obtain ⟨out, hout⟩ := ih (resolved ++ [t]) r2 hlen2 hperm2
        refine ⟨out, ?_⟩
        simp only [resolveAux, hfe]
        exact hout

/-- A concrete topological ranking witnesses well-foundedness of the
dependency relation. -/
theorem depRel_wf_of_rank (steps : List PStep) (rank : String → Nat)
    (h : ∀ s ∈ steps, ∀ d ∈ s.deps, rank d < rank s.step_id) :
    WellFounded (depRel steps) := by
  have hsub : Subrelation (depRel steps) (InvImage (· < ·) rank) := by
    intro d e hde
    obtain ⟨s, hs, hse, hd⟩ := hde
    have := h s hs d hd
    rw [hse] at this
    exact this
  exact Subrelation.wf hsub (InvImage.wf rank (Nat.lt_wfRel.wf))

/-- In any topologically consistent order, every dependency of a step
occurs among the ids output before it. -/
theorem okOrder_split {α : Type} (sid : α → String) (deps : α → List String) :
    ∀ (l1 : List α) (seen : List String) (s : α) (l2 : List α),
      okOrder sid deps seen (l1 ++ s :: l2) = true →
      ∀ d ∈ deps s, d ∈ seen ++ l1.map sid := by
  intro l1
  induction l1 with
  | nil =>
    intro seen s l2 h d hd
    simp only [List.nil_append, okOrder, Bool.and_eq_true] at h
    have := List.all_eq_true.mp h.1 d hd
    simpa using stringContains_iff.mp this
  | cons a tl ih =>
    intro seen s l2 h d hd
    simp only [List.cons_append, okOrder, Bool.and_eq_true] at h
    have := ih (seen ++ [sid a]) s l2 h.2 d hd
    simpa [List.append_assoc] using this

/-- Acessibility transfer along a topologically consistent order: with
unique step ids, every id output by such an order is accessible under the
dependency relation. -/
theorem okOrder_acc (steps : List PStep) (hids : (steps.map PStep.step_id).Nodup) :
    ∀ (t resolved : List PStep),
      okOrder PStep.step_id PStep.deps (resolved.map PStep.step_id) t = true →
      (resolved ++ t).Perm steps →
      (∀ a ∈ resolved.map PStep.step_id, Acc (depRel steps) a) →
      ∀ a ∈ t.map PStep.step_id, Acc (depRel steps) a := by
  intro t
  induction t with
  | nil => intro resolved _ _ _ a ha; simp at ha
  | cons s rest ih =>
    intro resolved hok hperm hacc a ha
    simp only [okOrder, Bool.and_eq_true] at hok
    obtain ⟨hd, htl⟩ := hok
    have hsin : s ∈ steps := hperm.subset (by simp)
    have hAccS : Acc (depRel steps) s.step_id := by
      constructor
      intro d hrel
      obtain ⟨s', hs', hs'id, hds'⟩ := hrel
      have hss : s' = s := List.inj_on_of_nodup_map hids hs' hsin hs'id
      have hdmem : d ∈ s.deps := hss ▸ hds'
      exact hacc d (stringContains_iff.mp (List.all_eq_true.mp hd d hdmem))
    rcases (by simpa using ha : a = s.step_id ∨ a ∈ rest.map PStep.step_id) with rfl | har
    · exact hAccS
    · refine ih (resolved ++ [s]) ?_ ?_ ?_ a har
      · simpa using htl
      · simpa [List.append_assoc] using hperm
      · intro b hb
        rcases (by simpa using hb : b ∈ resolved.map PStep.step_id ∨ b = s.step_id)
          with hbr | rfl
        · exact hacc b hbr
        · exact hAccS

/-- A successful resolution certifies that the dependency relation is
well-founded (the step set has no dependency cycle). -/
theorem resolve_some_wf (steps : List PStep) (hids : (steps.map PStep.step_id).Nodup)
    (out : List PStep)
    (h : resolveDependencies PStep.step_id PStep.deps steps = some out) :
    WellFounded (depRel steps) := by
  obtain ⟨t, hout, hperm, hok⟩ :=
    resolveAux_sound PStep.step_id PStep.deps steps.length [] steps out h
  constructor
  intro a
  by_cases ha : a ∈ steps.map PStep.step_id
  · refine okOrder_acc steps hids t [] hok ?_ (by simp) a ?_
    · simpa using hperm.symm
    · exact ((hperm.map PStep.step_id).mem_iff).mp ha
  · constructor
    intro d hrel
    obtain ⟨s, hs, hsid, _⟩ := hrel
    exact absurd (List.mem_map.mpr ⟨s, hs, hsid⟩) ha

/-- Every id on a cycle has a dependency pointing back into the cycle. -/
theorem idCycle_edge {steps : List PStep} {c : List String}
    (h : idCycle steps c = true) : ∀ a ∈ c, ∃ b ∈ c, depRel steps b a := by
  intro a ha
  simp only [idCycle, Bool.and_eq_true] at h
  obtain ⟨i, hi, rfl⟩ := List.mem_iff_get.mp ha
  have hlen : (c.zip (c.rotate 1)).length = c.length := by
    simp [List.length_zip, List.length_rotate]
  have hi' : (i : Nat) < (c.zip (c.rotate 1)).length := by rw [hlen]; exact i.isLt
  have hrot : (i : Nat) < (c.rotate 1).length := by rw [List.length_rotate]; exact i.isLt
  have hpair : (c.zip (c.rotate 1)).get ⟨i, hi'⟩ =
      (c.get i, (c.rotate 1).get ⟨i, hrot⟩) := by
    simp [List.getElem_zip]
  have hall := List.all_eq_true.mp h.2 _ (List.get_mem _ _ hi')
  rw [hpair] at hall
  simp only [List.any_eq_true, Bool.and_eq_true, beq_iff_eq] at hall
  obtain ⟨s, hs, hsid, hdep⟩ := hall
  refine ⟨(c.rotate 1).get ⟨i, hrot⟩, List.mem_rotate.mp (List.get_mem _ _ hrot),
    s, hs, hsid, stringContains_iff.mp hdep⟩

/-- A dependency cycle refutes well-foundedness of the dependency relation. -/
theorem idCycle_not_wf {steps : List PStep} {c : List String}
    (h : idCycle steps c = true) : ¬ WellFounded (depRel steps) := by
  intro hwf
  have hne : c ≠ [] := by
    simp only [idCycle, Bool.and_eq_true] at h
    simpa using h.1
  obtain ⟨m, hm, hmin⟩ := hwf.has_min { a | a ∈ c }
    ⟨c.head hne, List.head_mem hne⟩
  obtain ⟨b, hb, hrel⟩ := idCycle_edge h m hm
  exact hmin b hb hrel

/-- The repeated-scan loop is insensitive to extra fuel: one pass per
remaining step always suffices, so the loop terminates within
`steps.length` passes with the same outcome any larger budget would give. -/
theorem resolveAux_fuel {α : Type} (sid : α → String) (deps : α → List String) :
    ∀ (f1 f2 : Nat) (resolved unresolved : List α),
      unresolved.length ≤ f1 → unresolved.length ≤ f2 →
      resolveAux sid deps f1 resolved unresolved =
        resolveAux sid deps f2 resolved unresolved := by
  intro f1
  induction f1 with
  | zero =>
    intro f2 resolved unresolved h1 _
    match unresolved with
    | [] =>
      match f2 with
      | 0 => rfl
      | _ + 1 => rfl
    | s :: rest => simp at h1
  | succ f ih =>
    intro f2 resolved unresolved h1 h2
    match unresolved with
    | [] =>
      match f2 with
      | 0 => rfl
      | _ + 1 => rfl
    | s :: rest =>
      match f2 with
      | 0 => simp at h2
      | g + 1 =>
        simp only [resolveAux]
        match hfe : findEligible deps (resolved.map sid) (s :: rest) with
        | none => rfl
        | some (t, r2) =>
          have hl := findEligible_length hfe
          simp only [List.length_cons] at hl h1 h2
          exact ih g (resolved ++ [t]) r2 (by omega) (by omega)

/-- C2: for every input set of steps whose dependency graph is acyclic
(formalised as well-foundedness of the id-level dependency relation
`depRel`, which for a finite graph is exactly acyclicity) and whose every
listed dependency names a step present in the set,
`_resolve_dependencies` returns a sequence containing every input step
exactly once (a permutation of the input) in which each step appears after
all of its listed dependencies (`okOrder`). -/
theorem c2_resolver_topological_order (steps : List PStep)
    (hclosed : ∀ s ∈ steps, ∀ d ∈ s.deps, d ∈ steps.map PStep.step_id)
    (hwf : WellFounded (depRel steps)) :
    ∃ out, resolveDependencies PStep.step_id PStep.deps steps = some out ∧
      steps.Perm out ∧ okOrder PStep.step_id PStep.deps [] out = true := by
  obtain ⟨out, hout⟩ := resolveAux_complete steps hclosed hwf steps.length [] steps
    le_rfl (by simp)
  obtain ⟨t, hteq, hperm, hok⟩ :=
    resolveAux_sound PStep.step_id PStep.deps steps.length [] steps out hout
  rw [List.nil_append] at hteq
  subst hteq
  exact ⟨out, hout, hperm, by simpa using hok⟩

/-- Witness for C2 on the spec's `V → C → N` example. -/
theorem c2_resolver_topological_order_witness :
    (∀ s ∈ exSteps, ∀ d ∈ s.deps, d ∈ exSteps.map PStep.step_id) ∧
    WellFounded (depRel exSteps) ∧
    ∃ out, resolveDependencies PStep.step_id PStep.deps exSteps = some out ∧
      exSteps.Perm out ∧ okOrder PStep.step_id PStep.deps [] out = true := by
  have hwf : WellFounded (depRel exSteps) :=
    depRel_wf_of_rank exSteps exRank (by decide)
  exact ⟨by decide, hwf, c2_resolver_topological_order exSteps (by decide) hwf⟩

/-- C3: the resolver's loop terminates on every input — one pass per step
suffices, and any larger fuel budget returns the same result — and on a
dependency cycle, or a dependency naming an absent step id, it returns the
raised `"Circular dependency detected or unresolvable dependencies"` error
(`none`); `execute_process` then propagates that error before executing any
step, leaving the context and the engine state (ledger, breakers, log)
untouched. -/
theorem c3_resolver_rejects_terminates (steps : List PStep)
    (hids : (steps.map PStep.step_id).Nodup)
    (h : (∃ s ∈ steps, ∃ d ∈ s.deps, d ∉ steps.map PStep.step_id) ∨
         (∃ c, idCycle steps c = true)) :
    (∀ fuel, steps.length ≤ fuel →
      resolveAux PStep.step_id PStep.deps fuel [] steps =
        resolveDependencies PStep.step_id PStep.deps steps) ∧
    resolveDependencies PStep.step_id PStep.deps steps = none ∧
    (∀ (V : Type) (msteps : List (StepModel V)) (ctx : Context V) (st : EngState V),
      resolveDependencies StepModel.step_id StepModel.deps msteps = none →
      executeProcess msteps ctx st =
        (.error "Circular dependency detected or unresolvable dependencies", ctx, st)) := by
  refine ⟨?_, ?_, ?_⟩
  · intro fuel hf
    exact resolveAux_fuel _ _ fuel steps.length [] steps hf le_rfl
  · match hres : resolveDependencies PStep.step_id PStep.deps steps with
    | none => rfl
    | some out =>
      exfalso
      obtain ⟨t, hteq, hperm, hok⟩ :=
        resolveAux_sound PStep.step_id PStep.deps steps.length [] steps out hres
      rw [List.nil_append] at hteq
      subst hteq
      rcases h with ⟨s, hs, d, hd, hdnot⟩ | ⟨c, hc⟩
      · have hsin : s ∈ out := hperm.subset hs
        obtain ⟨l1, l2, hsplit⟩ := List.append_of_mem hsin
        have hdin : d ∈ ([] : List String) ++ l1.map PStep.step_id := by
          refine okOrder_split PStep.step_id PStep.deps l1 [] s l2 ?_ d hd
          rw [← hsplit]
          simpa using hok
        have hdout : d ∈ out.map PStep.step_id := by
          rw [hsplit, List.map_append]
          exact List.mem_append.mpr (Or.inl (by simpa using hdin))
        exact hdnot (((hperm.map PStep.step_id).mem_iff).mpr hdout)
      · exact idCycle_not_wf hc (resolve_some_wf steps hids out hres)
  · intro V msteps ctx st hnone
    simp [executeProcess, hnone]

/-- Witness for C3 on the two-step cycle `A ↔ B`. -/
theorem c3_resolver_rejects_terminates_witness :
    resolveDependencies PStep.step_id PStep.deps cycleSteps = none := by
  have h := c3_resolver_rejects_terminates cycleSteps (by decide)
    (Or.inr ⟨["A", "B"], by decide⟩)
  exact h.2.1

/-- C9 counterexample: the resolved order is not a function of the step
set.  `_resolve_dependencies` consumes `set(steps)`, and CPython iterates a
set of (freshly constructed) step objects in an order derived from their
identity hashes, not from the input order; the two lists below are two
possible iteration orders of the same two-element step set, and the
resolver maps them to different resolved orders.  Stability of the resolved
order across two runs on equal input is therefore not guaranteed by the
code. -/
theorem c9_counterexample :
    ([(⟨"A", []⟩ : PStep), ⟨"B", []⟩].Perm [⟨"B", []⟩, ⟨"A", []⟩]) ∧
    resolveDependencies PStep.step_id PStep.deps [⟨"A", []⟩, ⟨"B", []⟩] ≠
      resolveDependencies PStep.step_id PStep.deps [⟨"B", []⟩, ⟨"A", []⟩] := by
  decide

/-- C9 (amended): relative to the scan order actually presented by
`set(steps)`, the resolver is deterministic with a definite tie-break rule:
each pass selects exactly the first step in scan order whose dependencies
are already resolved, skipping only ineligible steps.  (Equal scan orders
therefore yield equal resolved orders; what the code does not guarantee is
that the scan order itself is reproducible from the input order.) -/
theorem c9_amended_scan_tiebreak {α : Type} (deps : α → List String)
    (ids : List String) (l : List α) (s : α) (rest : List α)
    (h : findEligible deps ids l = some (s, rest)) :
    ∃ l1 l2, l = l1 ++ s :: l2 ∧ rest = l1 ++ l2 ∧
      ((deps s).all (fun d => ids.contains d) = true) ∧
      ∀ x ∈ l1, ¬((deps x).all (fun d => ids.contains d) = true) :=
  findEligible_split deps ids l s rest h

/-- Witness for the amended C9: with nothing resolved yet, the scan of
`[C, V]` (where `C` needs `V`) skips `C` and picks `V`. -/
theorem c9_amended_scan_tiebreak_witness :
    ∃ l1 l2, [(⟨"C", ["V"]⟩ : PStep), ⟨"V", []⟩] = l1 ++ (⟨"V", []⟩ : PStep) :: l2 ∧
      ([(⟨"C", ["V"]⟩ : PStep)] : List PStep) = l1 ++ l2 ∧
      (((⟨"V", []⟩ : PStep).deps.all (fun d => ([] : List String).contains d)) = true) ∧
      ∀ x ∈ l1, ¬((PStep.deps x).all (fun d => ([] : List String).contains d) = true) :=
  c9_amended_scan_tiebreak PStep.deps [] [⟨"C", ["V"]⟩, ⟨"V", []⟩] ⟨"V", []⟩
    [⟨"C", ["V"]⟩] (by decide)

/-- C4: a `CircuitBreaker(failure_threshold=3)` starting `CLOSED` becomes
`OPEN` exactly on the third consecutive `record_failure()` and not before;
while `OPEN` and at most `timeout` time units after the last failure,
`can_execute()` is `false` and the state stays `OPEN`; once strictly more
than `timeout` has elapsed, `can_execute()` is `true` and moves the breaker
to `HALF_OPEN`, and a subsequent `record_success()` resets `failure_count`
to `0` and the state to `CLOSED`. -/
theorem c4_circuit_breaker_lifecycle (tmo t1 t2 t3 t : Int) :
    (({ failure_threshold := 3, timeout := tmo } :
        CircuitBreaker).recordFailure t1).state = CircuitStatus.closed ∧
    ((({ failure_threshold := 3, timeout := tmo } :
        CircuitBreaker).recordFailure t1).recordFailure t2).state =
      CircuitStatus.closed ∧
    (((({ failure_threshold := 3, timeout := tmo } :
        CircuitBreaker).recordFailure t1).recordFailure t2).recordFailure t3).state =
      CircuitStatus.opened ∧
    (t - t3 ≤ tmo →
      (((({ failure_threshold := 3, timeout := tmo } :
          CircuitBreaker).recordFailure t1).recordFailure t2).recordFailure t3).canExecute t =
        (false,
          ((({ failure_threshold := 3, timeout := tmo } :
            CircuitBreaker).recordFailure t1).recordFailure t2).recordFailure t3)) ∧
    (t - t3 > tmo →
      ((((({ failure_threshold := 3, timeout := tmo } :
          CircuitBreaker).recordFailure t1).recordFailure t2).recordFailure t3).canExecute t).1 =
        true ∧
      ((((({ failure_threshold := 3, timeout := tmo } :
          CircuitBreaker).recordFailure t1).recordFailure t2).recordFailure t3).canExecute t).2.state =
        CircuitStatus.halfOpen ∧
      (((((({ failure_threshold := 3, timeout := tmo } :
          CircuitBreaker).recordFailure t1).recordFailure t2).recordFailure t3).canExecute t).2.recordSuccess).failure_count =
        0 ∧
      (((((({ failure_threshold := 3, timeout := tmo } :
          CircuitBreaker).recordFailure t1).recordFailure t2).recordFailure t3).canExecute t).2.recordSuccess).state =
        CircuitStatus.closed) := by
  refine ⟨rfl, rfl, rfl, ?_, ?_⟩
  · intro hle
    simp [CircuitBreaker.recordFailure, CircuitBreaker.canExecute]
    omega
  · intro hgt
    have hlt : tmo < t - t3 := hgt
    simp [CircuitBreaker.recordFailure, CircuitBreaker.canExecute,
      CircuitBreaker.recordSuccess, hlt]

/-- Witness for C4 at `timeout = 60`, failures at times 0, 1, 2, probes at
times 10 (refused) and 100 (admitted). -/
theorem c4_circuit_breaker_lifecycle_witness :
    ((((({ failure_threshold := 3, timeout := 60 } :
        CircuitBreaker).recordFailure 0).recordFailure 1).recordFailure 2).canExecute 10).1 =
      false ∧
    ((((({ failure_threshold := 3, timeout := 60 } :
        CircuitBreaker).recordFailure 0).recordFailure 1).recordFailure 2).canExecute 100).1 =
      true ∧
    (((((({ failure_threshold := 3, timeout := 60 } :
        CircuitBreaker).recordFailure 0).recordFailure 1).recordFailure 2).canExecute 100).2.recordSuccess).state =
      CircuitStatus.closed := by
  have h10 := c4_circuit_breaker_lifecycle 60 0 1 2 10
  have h100 := c4_circuit_breaker_lifecycle 60 0 1 2 100
  refine ⟨?_, (h100.2.2.2.2 (by decide)).1, (h100.2.2.2.2 (by decide)).2.2.2⟩
  rw [h10.2.2.2.1 (by decide)]

theorem resultKey_inj {a b : String} (h : a ++ "_result" = b ++ "_result") : a = b := by
  have hd : a.data ++ "_result".data = b.data ++ "_result".data := by
    rw [← String.data_append, ← String.data_append, h]
  exact String.ext (List.append_cancel_right hd)

theorem insertByStart_perm {V : Type} (e : StepExecution V) :
    ∀ (l : List (StepExecution V)), (insertByStart e l).Perm (e :: l) := by
  intro l
  induction l with
  | nil => simp [insertByStart]
  | cons x xs ih =>
    by_cases h : x.started_at < e.started_at
    · simp only [insertByStart, if_pos h]
      exact (ih.cons x).trans (List.Perm.swap e x xs)
    · simp [insertByStart, if_neg h]

theorem sortByStart_perm {V : Type} :
    ∀ (l : List (StepExecution V)), (sortByStart l).Perm l := by
  intro l
  induction l with
  | nil => simp [sortByStart]
  | cons x xs ih =>
    exact (insertByStart_perm x (sortByStart xs)).trans (ih.cons x)

theorem foldl_replay_filter {V : Type} :
    ∀ (S : List (StepExecution V)) (d0 : List (String × Option V)),
      S.foldl (fun d e =>
        if e.status = ExecutionStatus.success then
          dictInsert d (e.step_id ++ "_result") e.output_data
        else d) d0 =
      (S.filter (fun e => e.status == ExecutionStatus.success)).foldl
        (fun d e => dictInsert d (e.step_id ++ "_result") e.output_data) d0 := by
  intro S
  induction S with
  | nil => intro d0; rfl
  | cons e rest ih =>
    intro d0
    by_cases h : e.status = ExecutionStatus.success
    · simp [List.foldl_cons, List.filter_cons, h, ih]
    · simp [List.foldl_cons, List.filter_cons, h, ih]

theorem foldl_ins_isSome {V : Type} :
    ∀ (L : List (StepExecution V)) (d0 : List (String × Option V)) (k : String),
      (dictFind (L.foldl
        (fun d e => dictInsert d (e.step_id ++ "_result") e.output_data) d0) k).isSome ↔
      (∃ e ∈ L, k = e.step_id ++ "_result") ∨ (dictFind d0 k).isSome := by
  intro L
  induction L with
  | nil => intro d0 k; simp
  | cons e rest ih =>
    intro d0 k
    rw [List.foldl_cons, ih]
    rw [dictFind_isSome_dictInsert]
    constructor
    · rintro (h | h | h)
      · exact Or.inl ⟨_, by simp [h.choose_spec.1], h.choose_spec.2⟩
      · exact Or.inl ⟨e, by simp, h⟩
      · exact Or.inr h
    · rintro (⟨e', he', hk⟩ | h)
      · rcases List.mem_cons.mp he' with rfl | hrest
        · exact Or.inr (Or.inl hk)
        · exact Or.inl ⟨e', hrest, hk⟩
      · exact Or.inr (Or.inr h)

theorem foldl_ins_not_mem {V : Type} :
    ∀ (L : List (StepExecution V)) (d0 : List (String × Option V)) (sid0 : String),
      (∀ e ∈ L, e.step_id ≠ sid0) →
      dictFind (L.foldl
        (fun d e => dictInsert d (e.step_id ++ "_result") e.output_data) d0)
          (sid0 ++ "_result") =
        dictFind d0 (sid0 ++ "_result") := by
  intro L
  induction L with
  | nil => intro d0 sid0 _; rfl
  | cons e rest ih =>
    intro d0 sid0 hne
    rw [List.foldl_cons, ih _ _ (fun e' he' => hne e' (List.mem_cons_of_mem e he'))]
    refine dictFind_dictInsert_ne _ _ _ _ ?_
    intro hkey
    exact hne e (List.mem_cons_self e rest) (resultKey_inj hkey).symm

theorem foldl_ins_last {V : Type} :
    ∀ (L : List (StepExecution V)) (d0 : List (String × Option V)) (i : Nat)
      (hi : i < L.length),
      (∀ j (hj : j < L.length), i < j →
        (L.get ⟨j, hj⟩).step_id ≠ (L.get ⟨i, hi⟩).step_id) →
      dictFind (L.foldl
        (fun d e => dictInsert d (e.step_id ++ "_result") e.output_data) d0)
          ((L.get ⟨i, hi⟩).step_id ++ "_result") =
        some (L.get ⟨i, hi⟩).output_data := by
  intro L
  induction L with
  | nil => intro d0 i hi; simp at hi
  | cons e rest ih =>
    intro d0 i hi hlast
    match i with
    | 0 =>
      rw [List.foldl_cons]
      have hnot : ∀ e' ∈ rest, e'.step_id ≠ e.step_id := by
        intro e' he'
        obtain ⟨j, hjlen, hje⟩ := List.mem_iff_getElem.mp he'
        have h2 : (rest.get ⟨j, hjlen⟩).step_id ≠ e.step_id :=
          hlast (j + 1) (by simpa using Nat.succ_lt_succ hjlen) (Nat.succ_pos _)
        have hge : rest.get ⟨j, hjlen⟩ = e' := hje
        rwa [hge] at h2
      have hstep := foldl_ins_not_mem rest
        (dictInsert d0 (e.step_id ++ "_result") e.output_data) e.step_id hnot
      show dictFind
          (rest.foldl (fun d e => dictInsert d (e.step_id ++ "_result") e.output_data)
            (dictInsert d0 (e.step_id ++ "_result") e.output_data))
          (e.step_id ++ "_result") = some e.output_data
      rw [hstep, dictFind_dictInsert_self]
    | j + 1 =>
      rw [List.foldl_cons]
      have hj : j < rest.length := by simpa using hi
      have harg : ∀ (j' : Nat) (hj' : j' < rest.length), j < j' →
          (rest.get ⟨j', hj'⟩).step_id ≠ (rest.get ⟨j, hj⟩).step_id := by
        intro j' hj' hlt
        have h2 : ((e :: rest).get ⟨j' + 1, by simpa using Nat.succ_lt_succ hj'⟩).step_id ≠
            ((e :: rest).get ⟨j + 1, hi⟩).step_id :=
          hlast (j' + 1) (by simpa using Nat.succ_lt_succ hj') (Nat.succ_lt_succ hlt)
        exact h2
      exact ih (dictInsert d0 (e.step_id ++ "_result") e.output_data) j hj harg

theorem mem_replaySuccesses {V : Type} (events : List (StepExecution V)) (pid : String)
    (e : StepExecution V) :
    e ∈ replaySuccesses events pid ↔
      e ∈ events ∧ e.process_id = pid ∧ e.status = ExecutionStatus.success := by
  unfold replaySuccesses getProcessHistory
  rw [List.mem_filter, (sortByStart_perm _).mem_iff, List.mem_filter]
  simp [and_assoc]

/-- C7: `replay_process(process_id)` returns a fresh context whose `data`
holds exactly the keys `"<step_id>_result"` of the `SUCCESS` records of
that process — records with any other status contribute nothing — and maps
each such key to the `output_data` of (the last, in ascending `started_at`
iteration order) `SUCCESS` record of that step. -/
theorem c7_replay_exact {V : Type} (events : List (StepExecution V)) (pid : String) :
    (replayProcess events pid).process_id = pid ∧
    (replayProcess events pid).execution_trace = [] ∧
    (∀ k, (dictFind (replayProcess events pid).data k).isSome ↔
      ∃ e ∈ events, e.process_id = pid ∧ e.status = ExecutionStatus.success ∧
        k = e.step_id ++ "_result") ∧
    (∀ i (hi : i < (replaySuccesses events pid).length),
      (∀ j (hj : j < (replaySuccesses events pid).length), i < j →
        ((replaySuccesses events pid).get ⟨j, hj⟩).step_id ≠
          ((replaySuccesses events pid).get ⟨i, hi⟩).step_id) →
      dictFind (replayProcess events pid).data
          (((replaySuccesses events pid).get ⟨i, hi⟩).step_id ++ "_result") =
        some ((replaySuccesses events pid).get ⟨i, hi⟩).output_data) := by
  have hdata : (replayProcess events pid).data =
      (replaySuccesses events pid).foldl
        (fun d e => dictInsert d (e.step_id ++ "_result") e.output_data) [] := by
    show (sortByStart (getProcessHistory events pid)).foldl _ [] = _
    rw [foldl_replay_filter]
    rfl
  refine ⟨rfl, rfl, ?_, ?_⟩
  · intro k
    rw [hdata, foldl_ins_isSome]
    rw [show dictFind ([] : List (String × Option V)) k = none from rfl]
    simp only [Option.isSome_none, Bool.false_eq_true, or_false]
    constructor
    · rintro ⟨e, heL, hk⟩
      obtain ⟨he, hpid, hsucc⟩ := (mem_replaySuccesses events pid e).mp heL
      exact ⟨e, he, hpid, hsucc, hk⟩
    · rintro ⟨e, he, hpid, hsucc, hk⟩
      exact ⟨e, (mem_replaySuccesses events pid e).mpr ⟨he, hpid, hsucc⟩, hk⟩
  · intro i hi hlast
    rw [hdata]
    exact foldl_ins_last (replaySuccesses events pid) [] i hi hlast

/-- Witness for C7: replaying process `p` of `exStore` recovers exactly
`a`'s output under `"a_result"`. -/
theorem c7_replay_exact_witness :
    dictFind (replayProcess exStore "p").data
        (((replaySuccesses exStore "p").get ⟨0, by decide⟩).step_id ++ "_result") =
      some ((replaySuccesses exStore "p").get ⟨0, by decide⟩).output_data :=
  (c7_replay_exact exStore "p").2.2.2 0 (by decide) (by decide)

theorem runStepBody_ledger {V : Type} (step : StepModel V) (ctx : Context V)
    (st : EngState V) : (runStepBody step ctx st).2.2.2.ledger = st.ledger := by
  unfold runStepBody
  match step.validate ctx with
  | .error e => simp [engRecordFailure]
  | .ok false => simp [engRecordFailure]
  | .ok true =>
    match step.execute ctx with
    | .error e => simp [engRecordFailure]
    | .ok res =>
      by_cases h : res.success <;> simp [h, engRecordFailure, engRecordSuccess]

theorem runStepBody_log {V : Type} (step : StepModel V) (ctx : Context V)
    (st : EngState V) :
    ∃ evs, (runStepBody step ctx st).2.2.2.log = st.log ++ evs ∧
      ∀ e ∈ evs, e.stepId = step.step_id ∧ e.compId = none := by
  unfold runStepBody
  match step.validate ctx with
  | .error e =>
    refine ⟨[.validateCall step.step_id, .cbFailure step.step_id], by simp [engRecordFailure], ?_⟩
    intro ev hev
    simp only [List.mem_cons, List.not_mem_nil, or_false] at hev
    rcases hev with rfl | rfl <;> exact ⟨rfl, rfl⟩
  | .ok false =>
    refine ⟨[.validateCall step.step_id, .cbFailure step.step_id], by simp [engRecordFailure], ?_⟩
    intro ev hev
    simp only [List.mem_cons, List.not_mem_nil, or_false] at hev
    rcases hev with rfl | rfl <;> exact ⟨rfl, rfl⟩
  | .ok true =>
    match step.execute ctx with
    | .error e =>
      refine ⟨[.validateCall step.step_id, .executeCall step.step_id,
        .cbFailure step.step_id], by simp [engRecordFailure], ?_⟩
      intro ev hev
      simp only [List.mem_cons, List.not_mem_nil, or_false] at hev
      rcases hev with rfl | rfl | rfl <;> exact ⟨rfl, rfl⟩
    | .ok res =>
      by_cases h : res.success
      · refine ⟨[.validateCall step.step_id, .executeCall step.step_id,
          .cbSuccess step.step_id], by simp [h, engRecordSuccess], ?_⟩
        intro ev hev
        simp only [List.mem_cons, List.not_mem_nil, or_false] at hev
        rcases hev with rfl | rfl | rfl <;> exact ⟨rfl, rfl⟩
      · refine ⟨[.validateCall step.step_id, .executeCall step.step_id,
          .cbFailure step.step_id], by simp [h, engRecordFailure], ?_⟩
        intro ev hev
        simp only [List.mem_cons, List.not_mem_nil, or_false] at hev
        rcases hev with rfl | rfl | rfl <;> exact ⟨rfl, rfl⟩

theorem eswp_stepId {V : Type} (step : StepModel V) (ctx : Context V) (st : EngState V) :
    (executeStepWithPatterns step ctx st).1.step_id = step.step_id := by
  unfold executeStepWithPatterns
  by_cases h : ((getBreaker st.breakers step.step_id).canExecute st.clock).1 <;> simp [h]

theorem eswp_pid {V : Type} (step : StepModel V) (ctx : Context V) (st : EngState V) :
    (executeStepWithPatterns step ctx st).1.process_id = ctx.process_id := by
  unfold executeStepWithPatterns
  by_cases h : ((getBreaker st.breakers step.step_id).canExecute st.clock).1 <;> simp [h]

theorem eswp_ledger {V : Type} (step : StepModel V) (ctx : Context V) (st : EngState V) :
    (executeStepWithPatterns step ctx st).2.2.ledger =
      st.ledger ++ [(executeStepWithPatterns step ctx st).1] := by
  unfold executeStepWithPatterns
  by_cases h : ((getBreaker st.breakers step.step_id).canExecute st.clock).1 <;>
    simp [h, runStepBody_ledger]

theorem eswp_log {V : Type} (step : StepModel V) (ctx : Context V) (st : EngState V) :
    ∃ evs, (executeStepWithPatterns step ctx st).2.2.log = st.log ++ evs ∧
      ∀ e ∈ evs, e.stepId = step.step_id ∧ e.compId = none := by
  unfold executeStepWithPatterns
  by_cases h : ((getBreaker st.breakers step.step_id).canExecute st.clock).1
  · simp only [h, if_true]
    exact runStepBody_log step ctx _
  · refine ⟨[], ?_, by simp⟩
    simp [h]

theorem eswp_data {V : Type} (step : StepModel V) (ctx : Context V) (st : EngState V) :
    (executeStepWithPatterns step ctx st).2.1.data = ctx.data := by
  unfold executeStepWithPatterns
  by_cases h : ((getBreaker st.breakers step.step_id).canExecute st.clock).1 <;> simp [h]

theorem eswp_ctx_pid {V : Type} (step : StepModel V) (ctx : Context V) (st : EngState V) :
    (executeStepWithPatterns step ctx st).2.1.process_id = ctx.process_id := by
  unfold executeStepWithPatterns
  by_cases h : ((getBreaker st.breakers step.step_id).canExecute st.clock).1 <;> simp [h]

theorem compensateList_state {V : Type} :
    ∀ (l : List (StepModel V)) (ctx : Context V) (st : EngState V),
      (compensateList l ctx st).2 =
        { st with log := st.log ++ l.map (fun s => EngEvent.compensateCall s.step_id) } := by
  intro l
  induction l with
  | nil => intro ctx st; simp [compensateList]
  | cons s rest ih =>
    intro ctx st
    simp [compensateList, ih]

theorem compensateList_ctx_default {V : Type} :
    ∀ (l : List (StepModel V)) (ctx : Context V) (st : EngState V),
      (∀ s ∈ l, s.compensate = defaultCompensate) →
      (compensateList l ctx st).1 = ctx := by
  intro l
  induction l with
  | nil => intro ctx st _; rfl
  | cons s rest ih =>
    intro ctx st hdef
    have hs : s.compensate = defaultCompensate := hdef s (by simp)
    show (compensateList rest (s.compensate ctx).2 _).1 = ctx
    rw [hs]
    exact ih ctx _ (fun s' hs' => hdef s' (by simp [hs']))

theorem compensateExecuted_state {V : Type} (executed : List (StepModel V))
    (ctx : Context V) (st : EngState V) :
    (compensateExecuted executed ctx st).2 =
      { st with log := st.log ++
          executed.reverse.map (fun s => EngEvent.compensateCall s.step_id) } :=
  compensateList_state executed.reverse ctx st

theorem compensateExecuted_ctx_default {V : Type} (executed : List (StepModel V))
    (ctx : Context V) (st : EngState V)
    (hdef : ∀ s ∈ executed, s.compensate = defaultCompensate) :
    (compensateExecuted executed ctx st).1 = ctx :=
  compensateList_ctx_default executed.reverse ctx st
    (fun s hs => hdef s (List.mem_reverse.mp hs))

theorem afterN_ledger {V : Type} (order : List (StepModel V)) (ctx : Context V)
    (st : EngState V) :
    ∀ n, n ≤ order.length →
      (afterN order ctx st n).2.ledger =
        st.ledger ++ (List.range n).map (recAt order ctx st) := by
  intro n
  induction n with
  | zero => intro _; simp [afterN]
  | succ m ih =>
    intro hm
    have hmlt : m < order.length := Nat.lt_of_lt_of_le (Nat.lt_succ_self m) hm
    have hget0 : order.get? m = some order[m] := by
      rw [List.get?_eq_getElem?, List.getElem?_eq_getElem hmlt]
    have hget1 : order[m]? = some order[m] := List.getElem?_eq_getElem hmlt
    have hrec : recAt order ctx st m =
        (executeStepWithPatterns order[m] (afterN order ctx st m).1
          (afterN order ctx st m).2).1 := by
      simp [recAt, hget1]
    simp only [afterN, hget0]
    rw [eswp_ledger, ih (le_of_lt hmlt), List.range_succ, List.map_append]
    simp [hrec]

theorem afterN_log {V : Type} (order : List (StepModel V)) (ctx : Context V)
    (st : EngState V) :
    ∀ n, n ≤ order.length →
      ∃ evs, (afterN order ctx st n).2.log = st.log ++ evs ∧
        ∀ e ∈ evs, e.compId = none ∧
          e.stepId ∈ (order.take n).map StepModel.step_id := by
  intro n
  induction n with
  | zero => intro _; exact ⟨[], by simp [afterN], by simp⟩
  | succ m ih =>
    intro hm
    have hmlt : m < order.length := Nat.lt_of_lt_of_le (Nat.lt_succ_self m) hm
    have hget0 : order.get? m = some order[m] := by
      rw [List.get?_eq_getElem?, List.getElem?_eq_getElem hmlt]
    obtain ⟨evs1, hlog1, hprop1⟩ := ih (le_of_lt hmlt)
    obtain ⟨evs2, hlog2, hprop2⟩ :=
      eswp_log order[m] (afterN order ctx st m).1 (afterN order ctx st m).2
    have htake : order.take m ++ [order[m]] = order.take (m + 1) :=
      List.take_concat_get' order m hmlt
    refine ⟨evs1 ++ evs2, ?_, ?_⟩
    · simp only [afterN, hget0]
      rw [hlog2, hlog1, List.append_assoc]
    · intro e he
      rcases List.mem_append.mp he with h1 | h2
      · obtain ⟨hc, hs⟩ := hprop1 e h1
        refine ⟨hc, ?_⟩
        rw [← htake, List.map_append]
        exact List.mem_append.mpr (Or.inl hs)
      · obtain ⟨hs, hc⟩ := hprop2 e h2
        refine ⟨hc, ?_⟩
        rw [← htake, List.map_append, hs]
        simp

theorem nodup_stepId_ne {V : Type} {order : List (StepModel V)}
    (h : (order.map StepModel.step_id).Nodup)
    {i j : Nat} (hi : i < order.length) (hj : j < order.length) (hij : i ≠ j) :
    (order.get ⟨i, hi⟩).step_id ≠ (order.get ⟨j, hj⟩).step_id := by
  intro heq
  apply hij
  have hi' : i < (order.map StepModel.step_id).length := by simpa
  have hj' : j < (order.map StepModel.step_id).length := by simpa
  have h1 : (order.map StepModel.step_id)[i] = (order.map StepModel.step_id)[j] := by
    simpa using heq
  exact (List.Nodup.getElem_inj_iff h).mp h1

theorem afterN_data_lookup {V : Type} (order : List (StepModel V)) (ctx : Context V)
    (st : EngState V) (hnodup : (order.map StepModel.step_id).Nodup) :
    ∀ n, n ≤ order.length → ∀ i, ∀ hi : i < order.length, i < n →
      dictFind (afterN order ctx st n).1.data
          ((order.get ⟨i, hi⟩).step_id ++ "_result") =
        some (recAt order ctx st i).output_data := by
  intro n
  induction n with
  | zero => intro _ i hi hin; exact absurd hin (Nat.not_lt_zero i)
  | succ m ih =>
    intro hm i hi hin
    have hmlt : m < order.length := Nat.lt_of_lt_of_le (Nat.lt_succ_self m) hm
    have hget0 : order.get? m = some order[m] := by
      rw [List.get?_eq_getElem?, List.getElem?_eq_getElem hmlt]
    have hget1 : order[m]? = some order[m] := List.getElem?_eq_getElem hmlt
    have hrec : recAt order ctx st m =
        (executeStepWithPatterns order[m] (afterN order ctx st m).1
          (afterN order ctx st m).2).1 := by
      simp [recAt, hget1]
    have hdata : (afterN order ctx st (m + 1)).1.data =
        dictInsert (afterN order ctx st m).1.data (order[m].step_id ++ "_result")
          (recAt order ctx st m).output_data := by
      simp only [afterN, hget0]
      rw [hrec, eswp_data]
    rw [hdata]
    rcases Nat.lt_succ_iff_lt_or_eq.mp hin with hlt | rfl
    · have hne : (order.get ⟨i, hi⟩).step_id ++ "_result" ≠
          order[m].step_id ++ "_result" := by
        intro heq
        exact nodup_stepId_ne hnodup hi hmlt (Nat.ne_of_lt hlt)
          (by simpa using resultKey_inj heq)
      rw [dictFind_dictInsert_ne _ _ _ _ hne]
      exact ih (le_of_lt hmlt) i hi hlt
    · have hkey : (order.get ⟨i, hi⟩).step_id = order[i].step_id := by simp
      rw [hkey, dictFind_dictInsert_self]

theorem runLoop_upto {V : Type} (order : List (StepModel V)) (ctx : Context V)
    (st : EngState V) :
    ∀ k, k ≤ order.length →
      (∀ i, i < k → (recAt order ctx st i).status = ExecutionStatus.success) →
      runLoop ctx st [] order =
        runLoop (afterN order ctx st k).1 (afterN order ctx st k).2
          (order.take k) (order.drop k) := by
  intro k
  induction k with
  | zero => intro _ _; rfl
  | succ m ih =>
    intro hm hsucc
    have hmlt : m < order.length := Nat.lt_of_lt_of_le (Nat.lt_succ_self m) hm
    have hget0 : order.get? m = some order[m] := by
      rw [List.get?_eq_getElem?, List.getElem?_eq_getElem hmlt]
    have hget1 : order[m]? = some order[m] := List.getElem?_eq_getElem hmlt
    rw [ih (le_of_lt hmlt) (fun i hi => hsucc i (Nat.lt_succ_of_lt hi))]
    rw [List.drop_eq_getElem_cons hmlt]
    have hrec : recAt order ctx st m =
        (executeStepWithPatterns order[m] (afterN order ctx st m).1
          (afterN order ctx st m).2).1 := by
      simp [recAt, hget1]
    have hstat : (executeStepWithPatterns order[m] (afterN order ctx st m).1
        (afterN order ctx st m).2).1.status = ExecutionStatus.success := by
      rw [← hrec]; exact hsucc m (Nat.lt_succ_self m)
    have hafter : afterN order ctx st (m + 1) =
        ({ (executeStepWithPatterns order[m] (afterN order ctx st m).1
            (afterN order ctx st m).2).2.1 with
           data := dictInsert
             (executeStepWithPatterns order[m] (afterN order ctx st m).1
               (afterN order ctx st m).2).2.1.data
             (order[m].step_id ++ "_result")
             (executeStepWithPatterns order[m] (afterN order ctx st m).1
               (afterN order ctx st m).2).1.output_data },
         (executeStepWithPatterns order[m] (afterN order ctx st m).1
           (afterN order ctx st m).2).2.2) := by
      simp only [afterN, hget0]
    rw [hafter, ← List.take_concat_get' order m hmlt]
    simp only [runLoop]
    rw [if_pos hstat]

theorem runLoop_char {V : Type} (order : List (StepModel V)) (ctx : Context V)
    (st : EngState V) (k : Nat) (hk : k < order.length)
    (hsucc : ∀ i, i < k → (recAt order ctx st i).status = ExecutionStatus.success)
    (hfail : (recAt order ctx st k).status ≠ ExecutionStatus.success) :
    runLoop ctx st [] order =
      (.error (processFailMsg order[k] (recAt order ctx st k)),
       (compensateExecuted (order.take k)
         (executeStepWithPatterns order[k] (afterN order ctx st k).1
           (afterN order ctx st k).2).2.1
         (executeStepWithPatterns order[k] (afterN order ctx st k).1
           (afterN order ctx st k).2).2.2).1,
       (compensateExecuted (order.take k)
         (executeStepWithPatterns order[k] (afterN order ctx st k).1
           (afterN order ctx st k).2).2.1
         (executeStepWithPatterns order[k] (afterN order ctx st k).1
           (afterN order ctx st k).2).2.2).2) := by
  rw [runLoop_upto order ctx st k (le_of_lt hk) hsucc]
  rw [List.drop_eq_getElem_cons hk]
  have hget1 : order[k]? = some order[k] := List.getElem?_eq_getElem hk
  have hrec : recAt order ctx st k =
      (executeStepWithPatterns order[k] (afterN order ctx st k).1
        (afterN order ctx st k).2).1 := by
    simp [recAt, hget1]
  have hstat : ¬((executeStepWithPatterns order[k] (afterN order ctx st k).1
      (afterN order ctx st k).2).1.status = ExecutionStatus.success) := by
    rw [← hrec]; exact hfail
  simp only [runLoop]
  rw [if_neg hstat, ← hrec]

theorem filterMap_comp_map {V : Type} :
    ∀ (l : List (StepModel V)),
      (l.map (fun s => EngEvent.compensateCall s.step_id)).filterMap EngEvent.compId =
        l.map StepModel.step_id := by
  intro l
  induction l with
  | nil => rfl
  | cons s rest ih => simp [EngEvent.compId, ih]

/-- Full shape of a failing `execute_process` run: the error names the
failing step and its message, and the returned context/state are those
produced by executing steps `0..k` and then compensating the first `k`. -/
theorem executeProcess_fail_parts {V : Type} (steps order : List (StepModel V))
    (ctx : Context V) (st : EngState V) (k : Nat)
    (h1 : resolveDependencies StepModel.step_id StepModel.deps steps = some order)
    (hk : k < order.length)
    (hsucc : ∀ i, i < k → (recAt order ctx st i).status = ExecutionStatus.success)
    (hfail : (recAt order ctx st k).status ≠ ExecutionStatus.success) :
    executeProcess steps ctx st =
      (.error (processFailMsg order[k] (recAt order ctx st k)),
       (compensateExecuted (order.take k)
         (executeStepWithPatterns order[k] (afterN order ctx st k).1
           (afterN order ctx st k).2).2.1
         (executeStepWithPatterns order[k] (afterN order ctx st k).1
           (afterN order ctx st k).2).2.2).1,
       (compensateExecuted (order.take k)
         (executeStepWithPatterns order[k] (afterN order ctx st k).1
           (afterN order ctx st k).2).2.1
         (executeStepWithPatterns order[k] (afterN order ctx st k).1
           (afterN order ctx st k).2).2.2).2) := by
  simp only [executeProcess, h1]
  exact runLoop_char order ctx st k hk hsucc hfail

/-- C1: if the resolved order is `order` and the run of step `k` produces a
non-`SUCCESS` record after `k` successes, then `execute_process` raises
`"Process failed at step <id_k>: <error>"`, appends to the ledger exactly
the records of steps `0..k` (steps after `k` are never attempted — every
logged engine event belongs to the first `k+1` steps), and the
`compensate`-call events appended by the run are exactly the first `k`
(all previously-succeeded) step ids in strict reverse execution order. -/
theorem c1_failure_stops_compensates_raises {V : Type}
    (steps order : List (StepModel V)) (ctx : Context V) (st : EngState V) (k : Nat)
    (h1 : resolveDependencies StepModel.step_id StepModel.deps steps = some order)
    (hk : k < order.length)
    (hsucc : ∀ i, i < k → (recAt order ctx st i).status = ExecutionStatus.success)
    (hfail : (recAt order ctx st k).status ≠ ExecutionStatus.success) :
    (executeProcess steps ctx st).1 =
      .error (processFailMsg (order.get ⟨k, hk⟩) (recAt order ctx st k)) ∧
    (executeProcess steps ctx st).2.2.ledger =
      st.ledger ++ (List.range (k + 1)).map (recAt order ctx st) ∧
    ∃ evs, (executeProcess steps ctx st).2.2.log = st.log ++ evs ∧
      evs.filterMap EngEvent.compId =
        ((order.take k).map StepModel.step_id).reverse ∧
      ∀ e ∈ evs, e.stepId ∈ (order.take (k + 1)).map StepModel.step_id := by
  have hparts := executeProcess_fail_parts steps order ctx st k h1 hk hsucc hfail
  have hget1 : order[k]? = some order[k] := List.getElem?_eq_getElem hk
  have hrec : recAt order ctx st k =
      (executeStepWithPatterns order[k] (afterN order ctx st k).1
        (afterN order ctx st k).2).1 := by
    simp [recAt, hget1]
  have htake : order.take k ++ [order[k]] = order.take (k + 1) :=
    List.take_concat_get' order k hk
  obtain ⟨evsN, hlogN, hpropN⟩ := afterN_log order ctx st k (le_of_lt hk)
  obtain ⟨evsK, hlogK, hpropK⟩ :=
    eswp_log order[k] (afterN order ctx st k).1 (afterN order ctx st k).2
  refine ⟨?_, ?_, ?_⟩
  · rw [hparts]
    simp
  · rw [hparts]
    show (compensateExecuted _ _ _).2.ledger = _
    rw [compensateExecuted_state]
    show (executeStepWithPatterns order[k] (afterN order ctx st k).1
      (afterN order ctx st k).2).2.2.ledger = _
    rw [eswp_ledger, afterN_ledger order ctx st k (le_of_lt hk), List.range_succ,
      List.map_append, ← hrec, List.append_assoc]
    rfl
  · refine ⟨evsN ++ evsK ++
      (order.take k).reverse.map (fun s => EngEvent.compensateCall s.step_id), ?_, ?_, ?_⟩
    · rw [hparts]
      show (compensateExecuted _ _ _).2.log = _
      rw [compensateExecuted_state]
      show (executeStepWithPatterns order[k] (afterN order ctx st k).1
          (afterN order ctx st k).2).2.2.log ++ _ = _
      rw [hlogK, hlogN]
      simp [List.append_assoc]
    · rw [List.filterMap_append, List.filterMap_append, filterMap_comp_map]
      rw [List.filterMap_eq_nil_iff.mpr (fun e he => (hpropN e he).1),
        List.filterMap_eq_nil_iff.mpr (fun e he => (hpropK e he).2)]
      simp [List.map_reverse]
    · intro e he
      rcases List.mem_append.mp he with he1 | he2
      · rcases List.mem_append.mp he1 with heN | heK
        · have := (hpropN e heN).2
          rw [← htake, List.map_append]
          exact List.mem_append.mpr (Or.inl this)
        · have := (hpropK e heK).1
          rw [← htake, List.map_append, this]
          simp
      · obtain ⟨s, hs, rfl⟩ := List.mem_map.mp he2
        have hs' : s ∈ order.take k := List.mem_reverse.mp hs
        rw [← htake, List.map_append]
        exact List.mem_append.mpr (Or.inl (List.mem_map.mpr ⟨s, hs', rfl⟩))

/-- C6: during the compensation sweep of a failed run, `compensate` is
invoked exactly once per previously-succeeded step, in strict reverse
order, whatever the individual `compensate` outcomes are (the steps — and
hence their compensation behaviours, including raising ones — are
universally quantified); the process-level error remains the original step
failure; and every `compensate` call the run adds to the log belongs to one
of the first `k` steps, each of which produced a `SUCCESS` record. -/
theorem c6_compensation_all_and_only_succeeded {V : Type}
    (steps order : List (StepModel V)) (ctx : Context V) (st : EngState V) (k : Nat)
    (h1 : resolveDependencies StepModel.step_id StepModel.deps steps = some order)
    (hk : k < order.length)
    (hsucc : ∀ i, i < k → (recAt order ctx st i).status = ExecutionStatus.success)
    (hfail : (recAt order ctx st k).status ≠ ExecutionStatus.success) :
    (∃ evs, (executeProcess steps ctx st).2.2.log = st.log ++ evs ∧
      evs.filterMap EngEvent.compId =
        ((order.take k).map StepModel.step_id).reverse) ∧
    (executeProcess steps ctx st).1 =
      .error (processFailMsg (order.get ⟨k, hk⟩) (recAt order ctx st k)) ∧
    (∀ i, EngEvent.compensateCall i ∈ (executeProcess steps ctx st).2.2.log →
      EngEvent.compensateCall i ∈ st.log ∨
      ∃ j, ∃ hj : j < k, i = (order.get ⟨j, Nat.lt_trans hj hk⟩).step_id ∧
        (recAt order ctx st j).status = ExecutionStatus.success) := by
  have hparts := executeProcess_fail_parts steps order ctx st k h1 hk hsucc hfail
  obtain ⟨evsN, hlogN, hpropN⟩ := afterN_log order ctx st k (le_of_lt hk)
  obtain ⟨evsK, hlogK, hpropK⟩ :=
    eswp_log order[k] (afterN order ctx st k).1 (afterN order ctx st k).2
  have hlog : (executeProcess steps ctx st).2.2.log =
      st.log ++ (evsN ++ evsK ++
        (order.take k).reverse.map (fun s => EngEvent.compensateCall s.step_id)) := by
    rw [hparts]
    show (compensateExecuted _ _ _).2.log = _
    rw [compensateExecuted_state]
    show (executeStepWithPatterns order[k] (afterN order ctx st k).1
        (afterN order ctx st k).2).2.2.log ++ _ = _
    rw [hlogK, hlogN]
    simp [List.append_assoc]
  refine ⟨⟨evsN ++ evsK ++
      (order.take k).reverse.map (fun s => EngEvent.compensateCall s.step_id),
      hlog, ?_⟩, ?_, ?_⟩
  · rw [List.filterMap_append, List.filterMap_append, filterMap_comp_map]
    rw [List.filterMap_eq_nil_iff.mpr (fun e he => (hpropN e he).1),
      List.filterMap_eq_nil_iff.mpr (fun e he => (hpropK e he).2)]
    simp [List.map_reverse]
  · rw [hparts]
    simp
  · intro i hi
    rw [hlog] at hi
    rcases List.mem_append.mp hi with hin | hrun
    · exact Or.inl hin
    · rcases List.mem_append.mp hrun with h12 | hcomp
      · exfalso
        rcases List.mem_append.mp h12 with hN | hK
        · have := (hpropN _ hN).1
          simp [EngEvent.compId] at this
        · have := (hpropK _ hK).2
          simp [EngEvent.compId] at this
      · obtain ⟨s, hs, heq⟩ := List.mem_map.mp hcomp
        have hs' : s ∈ order.take k := List.mem_reverse.mp hs
        obtain ⟨j, hjlen, hjs⟩ := List.mem_iff_getElem.mp hs'
        have hjk : j < k := by
          have := hjlen
          simp only [List.length_take] at this
          omega
        refine Or.inr ⟨j, hjk, ?_, hsucc j hjk⟩
        have hjt : (order.take k)[j] = order[j] := List.getElem_take ..
        have hsid : s.step_id = (order.get ⟨j, Nat.lt_trans hjk hk⟩).step_id := by
          rw [← hjs, hjt]
          simp
        cases heq
        exact hsid.symm ▸ rfl

/-- C10: when `execute_process` fails at step `k` and the executed steps
use the default `compensate`, the compensation sweep leaves the caller's
context exactly as it was when the failing step's record-keeping finished
(so every `execution_trace` entry appended so far survives), and
`data["<step_id>_result"]` still holds the recorded output of every step
that succeeded before the failure. -/
theorem c10_failed_run_preserves_partial_context {V : Type}
    (steps order : List (StepModel V)) (ctx : Context V) (st : EngState V) (k : Nat)
    (h1 : resolveDependencies StepModel.step_id StepModel.deps steps = some order)
    (hk : k < order.length)
    (hsucc : ∀ i, i < k → (recAt order ctx st i).status = ExecutionStatus.success)
    (hfail : (recAt order ctx st k).status ≠ ExecutionStatus.success)
    (hnodup : (order.map StepModel.step_id).Nodup)
    (hdef : ∀ s ∈ order.take k, s.compensate = defaultCompensate) :
    (executeProcess steps ctx st).2.1 =
      (executeStepWithPatterns (order.get ⟨k, hk⟩) (afterN order ctx st k).1
        (afterN order ctx st k).2).2.1 ∧
    ∀ i, ∀ hi : i < k,
      dictFind (executeProcess steps ctx st).2.1.data
          ((order.get ⟨i, Nat.lt_trans hi hk⟩).step_id ++ "_result") =
        some (recAt order ctx st i).output_data := by
  have hparts := executeProcess_fail_parts steps order ctx st k h1 hk hsucc hfail
  have hctx : (executeProcess steps ctx st).2.1 =
      (executeStepWithPatterns order[k] (afterN order ctx st k).1
        (afterN order ctx st k).2).2.1 := by
    rw [hparts]
    show (compensateExecuted _ _ _).1 = _
    exact compensateExecuted_ctx_default _ _ _ hdef
  refine ⟨by rw [hctx]; simp, ?_⟩
  intro i hi
  rw [hctx, eswp_data]
  exact afterN_data_lookup order ctx st hnodup k (le_of_lt hk) i
    (Nat.lt_trans hi hk) hi

/-- Witness for C1 on the `V`, `C`, `N` scenario: the run raises the
process-level error naming `N` and its message. -/
theorem c1_failure_stops_compensates_raises_witness :
    (executeProcess vcnSteps vcnCtx vcnSt).1 =
      .error "Process failed at step N: boom" := by
  have h := c1_failure_stops_compensates_raises vcnSteps vcnSteps vcnCtx vcnSt 2
    rfl (by decide) (by intro i hi; interval_cases i <;> rfl) (by decide)
  exact h.1.trans rfl

/-- Witness for C6 on the `V`, `C`, `N` scenario: the run's `compensate`
calls are exactly `C` then `V`. -/
theorem c6_compensation_all_and_only_succeeded_witness :
    ∃ evs, (executeProcess vcnSteps vcnCtx vcnSt).2.2.log = vcnSt.log ++ evs ∧
      evs.filterMap EngEvent.compId =
        ((vcnSteps.take 2).map StepModel.step_id).reverse :=
  (c6_compensation_all_and_only_succeeded vcnSteps vcnSteps vcnCtx vcnSt 2
    rfl (by decide) (by intro i hi; interval_cases i <;> rfl) (by decide)).1

/-- Witness for C10 on the `V`, `C`, `N` scenario: after the failure,
`data["V_result"]` still holds `V`'s recorded output. -/
theorem c10_failed_run_preserves_partial_context_witness :
    dictFind (executeProcess vcnSteps vcnCtx vcnSt).2.1.data
        ((vcnSteps.get ⟨0, by decide⟩).step_id ++ "_result") =
      some (recAt vcnSteps vcnCtx vcnSt 0).output_data := by
  have h := c10_failed_run_preserves_partial_context vcnSteps vcnSteps vcnCtx vcnSt 2
    rfl (by decide) (by intro i hi; interval_cases i <;> rfl) (by decide)
    (by decide)
    (by
      intro s hs
      have hcase : s = okStep "V" [] ∨ s = okStep "C" ["V"] := by
        simpa [vcnSteps] using hs
      rcases hcase with rfl | rfl <;> rfl)
  exact h.2 0 (by decide)

/-- C5 (amended): on the circuit-breaker-open path the engine synthesizes a
`FAILED` record with error message `"Circuit breaker is OPEN"`, stores it
in the ledger, and returns it immediately: `validate` and `execute` are
never invoked (the log is untouched), the execution-time/step-type metadata
is never computed, and — because the early return bypasses the
`try/finally` — **no** entry is appended to `Context.execution_trace` (the
context is returned unchanged). -/
theorem c5_amended_circuit_open_path {V : Type} (step : StepModel V) (ctx : Context V)
    (st : EngState V)
    (hgate : ((getBreaker st.breakers step.step_id).canExecute st.clock).1 = false) :
    (executeStepWithPatterns step ctx st).1.status = ExecutionStatus.failed ∧
    (executeStepWithPatterns step ctx st).1.error_message =
      some "Circuit breaker is OPEN" ∧
    (executeStepWithPatterns step ctx st).2.2.ledger =
      st.ledger ++ [(executeStepWithPatterns step ctx st).1] ∧
    (executeStepWithPatterns step ctx st).2.1 = ctx ∧
    (executeStepWithPatterns step ctx st).2.2.log = st.log ∧
    (executeStepWithPatterns step ctx st).1.metadata_execution_time_ms = none ∧
    (executeStepWithPatterns step ctx st).1.metadata_step_type = none := by
  unfold executeStepWithPatterns
  simp [hgate]

/-- C5 counterexample: with step `G`'s breaker `OPEN` and the cooldown not
elapsed, the gate refuses and the engine synthesizes and stores a `FAILED`
record — but, contrary to the claim, it appends **no**
step_id/status/timestamp entry to `Context.execution_trace`
(the trace stays empty), and the stored error message is
`"Circuit breaker is OPEN"`. -/
theorem c5_counterexample :
    ((getBreaker gateSt.breakers "G").canExecute gateSt.clock).1 = false ∧
    (executeStepWithPatterns gateStep gateCtx gateSt).2.2.ledger.length = 1 ∧
    (executeStepWithPatterns gateStep gateCtx gateSt).1.status =
      ExecutionStatus.failed ∧
    (executeStepWithPatterns gateStep gateCtx gateSt).2.1.execution_trace = [] ∧
    (executeStepWithPatterns gateStep gateCtx gateSt).1.error_message =
      some "Circuit breaker is OPEN" := by
  refine ⟨rfl, rfl, rfl, rfl, rfl⟩

/-- Witness for the amended C5 at the same concrete input. -/
theorem c5_amended_circuit_open_path_witness :
    (executeStepWithPatterns gateStep gateCtx gateSt).1.status =
      ExecutionStatus.failed ∧
    (executeStepWithPatterns gateStep gateCtx gateSt).2.1 = gateCtx ∧
    (executeStepWithPatterns gateStep gateCtx gateSt).2.2.log = gateSt.log := by
  have h := c5_amended_circuit_open_path gateStep gateCtx gateSt rfl
  exact ⟨h.1, h.2.2.2.1, h.2.2.2.2.1⟩

/-- C8: a command step with `retry_count = 2` whose underlying operation
fails on its first two invocations and succeeds on the third makes exactly
three calls, sleeping `2 ^ 0` then `2 ^ 1` time units between attempts,
and surfaces a single successful outcome: one run through the engine
stores exactly one `StepExecution`, with status `SUCCESS`, and the step's
circuit breaker receives exactly one `record_success()` call and no
`record_failure()` call (the engine log is exactly one `validate` call,
one `execute` call, one breaker success). -/
theorem c8_retry_invisible_single_success {V : Type}
    (f : Context V → Nat → Except String V) (ctx0 : Context V) (e0 e1 : String) (v : V)
    (h0 : f ctx0 0 = .error e0) (h1 : f ctx0 1 = .error e1) (h2 : f ctx0 2 = .ok v) :
    (executeWithRetry 2 (f ctx0)).sleeps = [2 ^ 0, 2 ^ 1] ∧
    (executeWithRetry 2 (f ctx0)).calls = 3 ∧
    (executeWithRetry 2 (f ctx0)).result = .ok v ∧
    (executeProcess [commandStepModel "c" 2 f []] ctx0 {}).2.2.ledger.map
      (fun r => r.status) = [ExecutionStatus.success] ∧
    (executeProcess [commandStepModel "c" 2 f []] ctx0 {}).2.2.log =
      [.validateCall "c", .executeCall "c", .cbSuccess "c"] := by
  have hretry : executeWithRetry 2 (f ctx0) = ⟨.ok v, [2 ^ 0, 2 ^ 1], 3⟩ := by
    simp [executeWithRetry, retryGo, h0, h1, h2]
  have hcmd : commandExecute 2 f ctx0 =
      { success := true, data := some v, error := none, metadata := [] } := by
    simp [commandExecute, hretry]
  refine ⟨by rw [hretry], by rw [hretry], by rw [hretry], ?_, ?_⟩ <;>
    simp [executeProcess, resolveDependencies, resolveAux, findEligible,
      commandStepModel, runLoop, executeStepWithPatterns, runStepBody, hcmd,
      getBreaker, dictFind, dictInsert, CircuitBreaker.canExecute,
      engRecordSuccess, engRecordFailure, ExecutionStatus.value]

/-- Witness for C8 with the concrete flaky operation. -/
theorem c8_retry_invisible_single_success_witness :
    (executeWithRetry 2 (flakyFunc flakyCtx)).sleeps = [2 ^ 0, 2 ^ 1] ∧
    (executeWithRetry 2 (flakyFunc flakyCtx)).calls = 3 ∧
    (executeWithRetry 2 (flakyFunc flakyCtx)).result = .ok 42 ∧
    (executeProcess [commandStepModel "c" 2 flakyFunc []] flakyCtx {}).2.2.ledger.map
      (fun r => r.status) = [ExecutionStatus.success] ∧
    (executeProcess [commandStepModel "c" 2 flakyFunc []] flakyCtx {}).2.2.log =
      [.validateCall "c", .executeCall "c", .cbSuccess "c"] :=
  c8_retry_invisible_single_success flakyFunc flakyCtx "boom0" "boom1" 42 rfl rfl rfl
